import Mathlib

/-!
A verification development for the Minesweeper CSP solver (`mines.py`).

The Python program is shallowly embedded: the mutable `MinesweeperBoard`
becomes a `Board` structure that every operation transforms functionally,
and the `CSPStrategy` solver becomes pure functions over a `Solver`
structure.  Grids (`numpy` arrays) are modelled as total functions from
coordinates to values, always consulted only at in-range coordinates,
mirroring the array accesses of the source.  Randomness
(`random.sample`, `random.choice`, `random.shuffle`) is modelled by
explicit parameters: the sampled mine positions are an argument of board
creation, and the solver takes a `Rand` record of choice/shuffle
functions.  Unbounded Python loops (the subset-simplification `while`
loop, the flood-fill queue, breadth-first component search) are embedded
with explicit fuel chosen large enough to cover every state the program
can reach.
-/

/-- A grid coordinate `(row, column)`, exactly the `(i, j)` pairs of the source. -/
abbrev Cell := Nat × Nat

/-- The state of `MinesweeperBoard`: dimensions, requested mine count, the
hidden grid (`-1` is a mine, otherwise the adjacent-mine count), the
visibility and mark grids, and the `first_move` / `game_over` / `won` flags. -/
structure Board where
  width : Nat
  height : Nat
  num_mines : Nat
  board : Cell → Int
  visible : Cell → Bool
  marked : Cell → Bool
  first_move : Bool
  game_over : Bool
  won : Bool

/-- All in-range cells in row-major order, as in
`[(i, j) for i in range(height) for j in range(width)]`. -/
def allCells (h w : Nat) : List Cell :=
  (List.range h).flatMap (fun i => (List.range w).map (fun j => (i, j)))

/-- The eight neighbour offsets of `get_neighbors`, in source iteration order
(`di` outer, `dj` inner, skipping `(0,0)`). -/
def neighborDeltas : List (Int × Int) :=
  [(-1, -1), (-1, 0), (-1, 1), (0, -1), (0, 1), (1, -1), (1, 0), (1, 1)]

/-- `MinesweeperBoard.get_neighbors`: the in-range cells among the eight
neighbours of `p` on an `h × w` grid. -/
def get_neighbors (h w : Nat) (p : Cell) : List Cell :=
  neighborDeltas.filterMap (fun d =>
    let ni : Int := (p.1 : Int) + d.1
    let nj : Int := (p.2 : Int) + d.2
    if 0 ≤ ni ∧ ni < (h : Int) ∧ 0 ≤ nj ∧ nj < (w : Int) then
      some (ni.toNat, nj.toNat)
    else none)

/-- `MinesweeperBoard.count_adjacent_mines` on an arbitrary grid `g`. -/
def count_adjacent_mines (h w : Nat) (g : Cell → Int) (p : Cell) : Nat :=
  (get_neighbors h w p).countP (fun q => g q == -1)

/-- The number of mine cells on the board (`-1` entries of the hidden grid). -/
def minesCount (b : Board) : Nat :=
  (allCells b.height b.width).countP (fun q => b.board q == -1)

/-- `np.sum(self.visible)`: the number of visible cells. -/
def visibleCount (b : Board) : Nat :=
  (allCells b.height b.width).countP (fun q => b.visible q)

/-- `np.sum(self.marked)`: the number of marked cells. -/
def markedCount (b : Board) : Nat :=
  (allCells b.height b.width).countP (fun q => b.marked q)

/-- `np.sum(~self.visible & ~self.marked)`: the number of unknown cells. -/
def unknownCount (b : Board) : Nat :=
  (allCells b.height b.width).countP (fun q => !b.visible q && !b.marked q)

/-- The board's numbers are consistent: every in-range non-mine cell holds its
adjacent-mine count.  This is the invariant established by
`place_mines_randomly` and maintained by `probe`'s first-move relocation. -/
def wellFormed (b : Board) : Prop :=
  ∀ q ∈ allCells b.height b.width,
    b.board q ≠ -1 → b.board q = (count_adjacent_mines b.height b.width b.board q : Int)

instance (b : Board) : Decidable (wellFormed b) := by
  unfold wellFormed; infer_instance

/-- `MinesweeperBoard.mark_mine`: unconditionally set the marked flag. -/
def mark_mine (b : Board) (p : Cell) : Board :=
  { b with marked := fun x => if x = p then true else b.marked x }

/-- The recomputation loop of `probe`'s first-move relocation: for each cell in
`cells`, if it is not a mine, overwrite it with its adjacent-mine count. -/
def recompute (h w : Nat) (cells : List Cell) (g : Cell → Int) : Cell → Int :=
  cells.foldl
    (fun acc rc =>
      if acc rc ≠ -1 then
        fun x => if x = rc then (count_adjacent_mines h w acc rc : Int) else acc x
      else acc) g

/-- The first-move relocation inside `probe`: scan row-major for the first
non-mine cell, swap the probed mine there, and recompute the counts of both
neighbourhoods plus the two cells themselves. -/
def relocate (b : Board) (p : Cell) : Board :=
  match (allCells b.height b.width).find? (fun q => b.board q != -1) with
  | none => b
  | some q =>
      let g1 : Cell → Int := fun x => if x = q then -1 else if x = p then 0 else b.board x
      { b with
        board := recompute b.height b.width
          (get_neighbors b.height b.width p ++ get_neighbors b.height b.width q ++ [p, q]) g1 }

/-- The breadth-first flood fill of `probe`: pop a zero cell, reveal its
unknown unmarked neighbours, and enqueue those whose count is zero.  `fuel`
bounds the number of dequeue steps of the Python `while queue` loop; probe
passes `width * height + 1`, enough for every reachable state since a cell is
enqueued at most once after becoming visible. -/
def flood (h w : Nat) (g : Cell → Int) (marked : Cell → Bool) :
    Nat → List Cell → (Cell → Bool) → (Cell → Bool)
  | 0, _, vis => vis
  | _ + 1, [], vis => vis
  | fuel + 1, r :: queue, vis =>
      let step := (get_neighbors h w r).foldl
        (fun (acc : (Cell → Bool) × List Cell) n =>
          if acc.1 n = false ∧ marked n = false then
            (fun x => if x = n then true else acc.1 x,
             if g n = 0 then acc.2 ++ [n] else acc.2)
          else acc)
        (vis, [])
      flood h w g marked fuel (queue ++ step.2) step.1

/-- `MinesweeperBoard.probe`.  Returns the `(bool, state)` pair: `False`
exactly when a mine is hit.  On the first move a probed mine is relocated
before the mine test. -/
def probe (b : Board) (p : Cell) : Bool × Board :=
  let b1 :=
    if b.first_move then
      let b' := { b with first_move := false }
      if b'.board p = -1 then relocate b' p else b'
    else b
  if b1.board p = -1 then
    (false, { b1 with game_over := true })
  else
    let b2 := { b1 with visible := fun x => if x = p then true else b1.visible x }
    let b3 :=
      if b2.board p = 0 then
        { b2 with
          visible := flood b2.height b2.width b2.board b2.marked
            (b2.width * b2.height + 1) [p] b2.visible }
      else b2
    if (visibleCount b3 : Int) = (b3.width : Int) * (b3.height : Int) - (b3.num_mines : Int) then
      (true, { b3 with won := true })
    else (true, b3)

/-- `MinesweeperBoard.__init__` together with `place_mines_randomly`.  The
positions drawn by `random.sample(positions, num_mines)` are passed in as
`sample`; the guard captures exactly what a successful `random.sample`
guarantees (that many distinct in-range positions), so creation yields `none`
exactly when the sampling step would raise, i.e. when `num_mines` exceeds the
number of grid positions. -/
def make_board (width height num_mines : Nat) (sample : List Cell) : Option Board :=
  if sample.Nodup ∧ sample.length = num_mines ∧ ∀ p ∈ sample, p ∈ allCells height width then
    let g0 : Cell → Int := fun p => if sample.contains p then -1 else 0
    some
      { width := width, height := height, num_mines := num_mines,
        board := fun p => if g0 p = -1 then -1 else (count_adjacent_mines height width g0 p : Int),
        visible := fun _ => false, marked := fun _ => false,
        first_move := true, game_over := false, won := false }
  else none

example : (allCells 2 3).length = 6 := by decide
example : get_neighbors 3 3 (0, 0) = [(0, 1), (1, 0), (1, 1)] := by decide
example : count_adjacent_mines 2 2 (fun p => if p = (0, 0) then -1 else 0) (1, 1) = 1 := by decide

/-- The `Constraint` class: a list of cell variables (a Python `set`, here an
insertion-ordered duplicate-free list) and the integer sum target. -/
structure Constraint where
  vars : List Cell
  value : Int
deriving DecidableEq

/-- The mutable state of `CSPStrategy`: the board and the constraint list. -/
structure Solver where
  board : Board
  constraints : List Constraint

/-- The action component of a move returned by the solver. -/
inductive MAction
  | probe
  | mark
deriving DecidableEq

/-- The justification string attached to each returned move, modelled as a tag
naming the rule that fired. -/
inductive Reason
  | certainMark
  | certainProbe
  | crapsShoot
  | enumProbe
  | enumMark
  | bestGuess
  | corner
  | edge
  | interior
  | randomLast
deriving DecidableEq

/-- A solver decision `(action, (i, j), reason)`. -/
structure MoveR where
  action : MAction
  cell : Cell
  reason : Reason
deriving DecidableEq

/-- The explicit pseudo-random source: `choice` models `random.choice` (on a
non-empty list it returns one of its members; the Python call raises on an
empty list, here `none`), and `shuffle` models `random.shuffle`. -/
structure RandSrc where
  choice : List Cell → Option Cell
  shuffle : List Cell → List Cell

/-- A deterministic instance of the random source: pick the head, leave lists
unshuffled. -/
def headRand : RandSrc :=
  { choice := List.head?, shuffle := id }

/-- `CSPStrategy.simplify_constraints`: one pass over the constraint list.
Known-clear variables are dropped, marked variables decrement the target,
empty results are discarded, a zero target reveals all remaining variables,
and a full target marks them; mutations of the board made while processing
one constraint are seen by the later ones. -/
def simplify_constraints (s : Solver) : Solver :=
  let step := s.constraints.foldl
    (fun (st : Board × List Constraint) c =>
      let b := st.1
      let new_vars := c.vars.filter (fun p => !b.visible p && !b.marked p)
      let new_value := c.value - (c.vars.countP (fun p => !b.visible p && b.marked p) : Int)
      if new_vars.isEmpty then st
      else if new_value = 0 then
        (new_vars.foldl (fun bb p =>
          { bb with visible := fun x => if x = p then true else bb.visible x }) b, st.2)
      else if new_value = (new_vars.length : Int) then
        (new_vars.foldl (fun bb p => mark_mine bb p) b, st.2)
      else (b, st.2 ++ [⟨new_vars, new_value⟩]))
    (s.board, [])
  ⟨step.1, step.2⟩

/-- The inner `for j, c2 in enumerate(...)` scan of
`simplify_constraints_by_subset`, for a fixed `i` and `c1 = constraints[i]`:
over the remaining indices `js`, replace any strict superset constraint and
continue, or pop an exactly-covered one and stop (the Python `break`).
Returns the updated list and whether anything changed. -/
def innerScan (i : Nat) (c1 : Constraint) :
    List Nat → List Constraint → List Constraint × Bool
  | [], cs => (cs, false)
  | j :: js, cs =>
      if j ≠ i ∧ c1.vars.all (fun v => (cs.getD j ⟨[], 0⟩).vars.contains v) then
        let c2 := cs.getD j ⟨[], 0⟩
        let new_vars := c2.vars.filter (fun v => !c1.vars.contains v)
        if new_vars.isEmpty then (cs.eraseIdx j, true)
        else
          ((innerScan i c1 js (cs.set j ⟨new_vars, c2.value - c1.value⟩)).1, true)
      else innerScan i c1 js cs

/-- The outer `for i, c1 in enumerate(...)` scan of
`simplify_constraints_by_subset`: run the inner scan for each `i` in turn and
stop at the first `i` whose scan changed something (the Python
`if changed: break`). -/
def outerScan (cs : List Constraint) : List Constraint × Bool :=
  go (List.range cs.length) cs
where
  go : List Nat → List Constraint → List Constraint × Bool
    | [], cs => (cs, false)
    | i :: is, cs =>
        let r := innerScan i (cs.getD i ⟨[], 0⟩) (List.range cs.length) cs
        if r.2 then (r.1, true) else go is cs

/-- The `while changed` loop of `simplify_constraints_by_subset`, with fuel. -/
def subsetLoop : Nat → List Constraint → List Constraint
  | 0, cs => cs
  | fuel + 1, cs =>
      let r := outerScan cs
      if r.2 then subsetLoop fuel r.1 else cs

/-- Fuel that exhausts the subset-simplification loop on every state the
program reaches: each changing pass removes a constraint or strictly shrinks
one constraint's variable list (constraints with empty variable lists never
enter the solver). -/
def subsetFuel (cs : List Constraint) : Nat :=
  (cs.map (fun c => c.vars.length)).sum + cs.length + 1

/-- `CSPStrategy.simplify_constraints_by_subset`. -/
def simplify_constraints_by_subset (cs : List Constraint) : List Constraint :=
  subsetLoop (subsetFuel cs) cs

/-- `CSPStrategy.find_certain_move`: the first constraint whose target equals
its size yields a mark on its first unmarked variable; a zero target yields a
probe on its first unknown variable. -/
def find_certain_move (s : Solver) : Option MoveR :=
  s.constraints.findSome? (fun c =>
    match (if c.value = (c.vars.length : Int) then
            c.vars.find? (fun p => !s.board.marked p)
           else none) with
    | some p => some ⟨MAction.mark, p, Reason.certainMark⟩
    | none =>
      match (if c.value = (0 : Int) then
              c.vars.find? (fun p => !s.board.visible p && !s.board.marked p)
             else none) with
      | some p => some ⟨MAction.probe, p, Reason.certainProbe⟩
      | none => none)

/-- The union of the variables of a list of constraints, in first-seen order
(a deterministic stand-in for Python's `set` union in `solve_constraints`,
`check_craps_shoot` and `make_best_guess`). -/
def allVarsOf (cs : List Constraint) : List Cell :=
  cs.foldl (fun acc c =>
    c.vars.foldl (fun a v => if a.contains v then a else a ++ [v]) acc) []

/-- `assigned_vars.get(var, 0)`: look a variable up in an assignment list. -/
def lookupD (a : List (Cell × Bool)) (v : Cell) (d : Bool) : Bool :=
  match a.find? (fun x => x.1 == v) with
  | some x => x.2
  | none => d

/-- The leaf test of the backtracking enumeration: every constraint's
mine-count under the assignment equals its target exactly. -/
def checkAll (cs : List Constraint) (assigned : List (Cell × Bool)) : Bool :=
  cs.all (fun c =>
    ((c.vars.countP (fun v => lookupD assigned v false) : Int) == c.value))

/-- The `backtrack` recursion of `solve_constraints` (and of
`make_best_guess`, which repeats it verbatim): extend the assignment with
`0` before `1` for each variable in turn and keep the leaves that satisfy
every constraint.  The source tallies solutions instead of collecting them;
the tallies are recovered below by counting over this list. -/
def solveWorlds (cs : List Constraint) : List Cell → List (Cell × Bool) → List (List (Cell × Bool))
  | [], assigned => if checkAll cs assigned then [assigned] else []
  | v :: rest, assigned =>
      solveWorlds cs rest (assigned ++ [(v, false)]) ++
        solveWorlds cs rest (assigned ++ [(v, true)])

/-- `total_solutions` of `solve_constraints`. -/
def totalSolutions (cs : List Constraint) (vars : List Cell) : Nat :=
  (solveWorlds cs vars []).length

/-- `var_is_mine_count[var]` of `solve_constraints`. -/
def varIsMineCount (cs : List Constraint) (vars : List Cell) (v : Cell) : Nat :=
  (solveWorlds cs vars []).countP (fun w => lookupD w v false)

/-- `CSPStrategy.solve_constraints`: enumerate one coupled subset and return
the first variable that is a mine in no world (probe) or in every world
(mark). -/
def solve_constraints (subset : List Constraint) : Option MoveR :=
  let all_vars := allVarsOf subset
  let ws := solveWorlds subset all_vars []
  if ws.length = 0 then none
  else
    all_vars.findSome? (fun v =>
      if ws.countP (fun w => lookupD w v false) = 0 then
        some ⟨MAction.probe, v, Reason.enumProbe⟩
      else if ws.countP (fun w => lookupD w v false) = ws.length then
        some ⟨MAction.mark, v, Reason.enumMark⟩
      else none)

/-- Whether two constraints share a variable, the adjacency relation of
`find_coupled_constraints`. -/
def sharesVar (cs : List Constraint) (i j : Nat) : Bool :=
  (i != j) &&
    (cs.getD i ⟨[], 0⟩).vars.any (fun v => (cs.getD j ⟨[], 0⟩).vars.contains v)

/-- The breadth-first traversal of `find_coupled_constraints`, with fuel
(`n + 1` dequeues suffice since an index enters the queue at most once).
Neighbour sets of the Python `defaultdict(set)` graph are visited in
increasing index order. -/
def bfsComp (cs : List Constraint) (n : Nat) :
    Nat → List Nat → List Nat → List Nat → List Nat × List Nat
  | 0, _, visited, acc => (acc, visited)
  | _ + 1, [], visited, acc => (acc, visited)
  | fuel + 1, node :: queue, visited, acc =>
      let st := (List.range n).foldl
        (fun (st : List Nat × List Nat) nb =>
          if sharesVar cs node nb && !st.2.contains nb then
            (st.1 ++ [nb], st.2 ++ [nb])
          else st)
        (queue, visited)
      bfsComp cs n fuel st.1 st.2 (acc ++ [node])

/-- `CSPStrategy.find_coupled_constraints`: the connected components of the
shared-variable graph, each listed in breadth-first discovery order. -/
def find_coupled_constraints (cs : List Constraint) : List (List Constraint) :=
  let n := cs.length
  let sets := ((List.range n).foldl
    (fun (st : List Nat × List (List Nat)) i =>
      if st.1.contains i then st
      else
        let r := bfsComp cs n (n + 1) [i] (st.1 ++ [i]) []
        (r.2, st.2 ++ [r.1]))
    ([], [])).2
  sets.map (fun comp => comp.map (fun k => cs.getD k ⟨[], 0⟩))

/-- `CSPStrategy.check_craps_shoot`: if no variable of the subset has an
unknown neighbour outside the subset, the situation is a forced guess and a
uniformly random member is probed. -/
def check_craps_shoot (rnd : RandSrc) (s : Solver) (subset : List Constraint) : Option MoveR :=
  let all_vars := allVarsOf subset
  if all_vars.any (fun v =>
      (get_neighbors s.board.height s.board.width v).any (fun nb =>
        !s.board.visible nb && !s.board.marked nb && !all_vars.contains nb)) then
    none
  else
    (rnd.choice all_vars).map (fun p => ⟨MAction.probe, p, Reason.crapsShoot⟩)

/-- `CSPStrategy.make_best_guess`: per-component enumeration yields each
constrained variable's probability of being clear; the best constrained
variable is probed when it strictly beats the unconstrained probability
derived from the global remaining-mine count. -/
def make_best_guess (s : Solver) : Option MoveR :=
  let comps := find_coupled_constraints s.constraints
  let var_probs : List (Cell × ℚ) := comps.foldl
    (fun acc subset =>
      let all_vars := allVarsOf subset
      let ws := solveWorlds subset all_vars []
      if ws.length > 0 then
        acc ++ all_vars.map (fun v =>
          (v, 1 - (ws.countP (fun w => lookupD w v false) : ℚ) / (ws.length : ℚ)))
      else acc) []
  let remaining_mines : ℚ := (s.board.num_mines : ℚ) - (markedCount s.board : ℚ)
  let unconstrained_count : ℚ := (unknownCount s.board : ℚ) -
    (var_probs.countP (fun vp => !s.board.visible vp.1 && !s.board.marked vp.1) : ℚ)
  if unconstrained_count > 0 then
    let expected_mines_constrained : ℚ := (var_probs.map (fun vp => 1 - vp.2)).sum
    let p_unconstrained_clear : ℚ :=
      1 - (remaining_mines - expected_mines_constrained) / unconstrained_count
    let best := var_probs.foldl
      (fun (best : Option Cell × ℚ) vp =>
        if !s.board.visible vp.1 && !s.board.marked vp.1 && decide (vp.2 > best.2) then
          (some vp.1, vp.2)
        else best)
      (none, 0)
    match best.1 with
    | some p => if best.2 > p_unconstrained_clear then some ⟨MAction.probe, p, Reason.bestGuess⟩
                else none
    | none => none
  else none

/-- `CSPStrategy.choose_unconstrained_square`: prefer a corner, then a
shuffled edge cell, then the interior cell with maximum overlap against the
constraints, then a random unknown cell. -/
def choose_unconstrained_square (rnd : RandSrc) (s : Solver) : Option MoveR :=
  let b := s.board
  let corners : List Cell :=
    [(0, 0), (0, b.width - 1), (b.height - 1, 0), (b.height - 1, b.width - 1)]
  match corners.find? (fun p => !b.visible p && !b.marked p) with
  | some p => some ⟨MAction.probe, p, Reason.corner⟩
  | none =>
    let edges := (allCells b.height b.width).filter (fun p =>
      (decide (p.1 = 0) || decide (p.1 = b.height - 1) || decide (p.2 = 0) ||
        decide (p.2 = b.width - 1)) && !corners.contains p)
    match (rnd.shuffle edges).find? (fun p => !b.visible p && !b.marked p) with
    | some p => some ⟨MAction.probe, p, Reason.edge⟩
    | none =>
      let interior := (allCells b.height b.width).filter (fun p =>
        decide (1 ≤ p.1) && decide (p.1 + 1 < b.height) &&
          decide (1 ≤ p.2) && decide (p.2 + 1 < b.width))
      let best := interior.foldl
        (fun (st : Option Cell × Int) p =>
          if !b.visible p && !b.marked p then
            let overlap : Int := (s.constraints.map (fun c =>
              ((get_neighbors b.height b.width p).countP
                (fun nb => c.vars.contains nb) : Int))).sum
            if overlap > st.2 then (some p, overlap) else st
          else st)
        (none, -1)
      match best.1 with
      | some p => some ⟨MAction.probe, p, Reason.interior⟩
      | none =>
        let unconstrained := (allCells b.height b.width).filter
          (fun p => !b.visible p && !b.marked p)
        (rnd.choice unconstrained).map (fun p => ⟨MAction.probe, p, Reason.randomLast⟩)

/-- The per-component loop inside `next_move` (steps 5 and 3–4): for each
coupled subset, first test for a craps shoot, then enumerate. -/
def processComponents (rnd : RandSrc) (s : Solver) : List (List Constraint) → Option MoveR
  | [] => none
  | subset :: rest =>
      match check_craps_shoot rnd s subset with
      | some m => some m
      | none =>
        match solve_constraints subset with
        | some m => some m
        | none => processComponents rnd s rest

/-- `CSPStrategy.next_move`: simplify, subset-simplify, take a certain move if
one is trivially available, otherwise walk the coupled components
(craps-shoot test before enumeration), then the probabilistic guess, then a
heuristic unconstrained square.  Returns the move together with the mutated
solver state. -/
def next_move (rnd : RandSrc) (s : Solver) : Option MoveR × Solver :=
  let s1 := simplify_constraints s
  let s2 : Solver := ⟨s1.board, simplify_constraints_by_subset s1.constraints⟩
  match find_certain_move s2 with
  | some m => (some m, s2)
  | none =>
    match processComponents rnd s2 (find_coupled_constraints s2.constraints) with
    | some m => (some m, s2)
    | none =>
      match make_best_guess s2 with
      | some m => (some m, s2)
      | none => (choose_unconstrained_square rnd s2, s2)

/-- One invocation of the simplification pair as `next_move` performs it:
`simplify_constraints` followed by `simplify_constraints_by_subset`. -/
def simpPair (s : Solver) : Solver :=
  let s1 := simplify_constraints s
  ⟨s1.board, simplify_constraints_by_subset s1.constraints⟩


/-! ### Basic grid lemmas -/

theorem mem_allCells {h w : Nat} {q : Cell} :
    q ∈ allCells h w ↔ q.1 < h ∧ q.2 < w := by
  obtain ⟨i, j⟩ := q
  simp only [allCells, List.mem_flatMap, List.mem_map, List.mem_range, Prod.mk.injEq]
  constructor
  · rintro ⟨a, ha, b, hb, rfl, rfl⟩; exact ⟨ha, hb⟩
  · rintro ⟨hi, hj⟩; exact ⟨i, hi, j, hj, rfl, rfl⟩

theorem length_allCells (h w : Nat) : (allCells h w).length = h * w := by
  induction h with
  | zero => simp [allCells]
  | succ n ih =>
    have e : allCells (n + 1) w = allCells n w ++ (List.range w).map (fun j => (n, j)) := by
      simp [allCells, List.range_succ]
    rw [e, List.length_append, ih, List.length_map, List.length_range]
    ring

theorem nodup_allCells (h w : Nat) : (allCells h w).Nodup := by
  have e : allCells h w = (List.range h) ×ˢ (List.range w) := by
    simp [allCells, SProd.sprod, List.product, List.flatMap, Function.comp]
  rw [e]
  exact List.Nodup.product (List.nodup_range h) (List.nodup_range w)

theorem mem_get_neighbors {h w : Nat} {p q : Cell} :
    q ∈ get_neighbors h w p ↔
      q.1 < h ∧ q.2 < w ∧ q ≠ p ∧
        ((q.1 : Int) - (p.1 : Int)).natAbs ≤ 1 ∧ ((q.2 : Int) - (p.2 : Int)).natAbs ≤ 1 := by
  obtain ⟨pi, pj⟩ := p
  obtain ⟨qi, qj⟩ := q
  constructor
  · intro hmem
    rw [get_neighbors, List.mem_filterMap] at hmem
    obtain ⟨d, hd, hopt⟩ := hmem
    dsimp only at hopt
    split at hopt
    case isTrue hcond =>
      obtain ⟨h1, h2, h3, h4⟩ := hcond
      have hqi : ((pi : Int) + d.1).toNat = qi := congrArg Prod.fst (Option.some.inj hopt)
      have hqj : ((pj : Int) + d.2).toNat = qj := congrArg Prod.snd (Option.some.inj hopt)
      fin_cases hd <;>
        (simp only at hqi hqj h1 h2 h3 h4
         refine ⟨by omega, by omega, ?_, by omega, by omega⟩
         simp only [Ne, Prod.mk.injEq, not_and]
         omega)
    case isFalse => exact absurd hopt (by simp)
  · rintro ⟨hqi, hqj, hne, h1, h2⟩
    rw [get_neighbors, List.mem_filterMap]
    refine ⟨((qi : Int) - pi, (qj : Int) - pj), ?_, ?_⟩
    · have hne' : ¬((qi : Int) - pi = 0 ∧ (qj : Int) - pj = 0) := by
        rintro ⟨e1, e2⟩
        exact hne (by simp only [Prod.mk.injEq]; omega)
      have hi : (qi : Int) - pi = -1 ∨ (qi : Int) - pi = 0 ∨ (qi : Int) - pi = 1 := by omega
      have hj : (qj : Int) - pj = -1 ∨ (qj : Int) - pj = 0 ∨ (qj : Int) - pj = 1 := by omega
      simp only [neighborDeltas, List.mem_cons, List.not_mem_nil, or_false, Prod.mk.injEq]
      rcases hi with e | e | e <;> rcases hj with e' | e' | e' <;> simp [e, e'] <;> omega
    · dsimp only
      rw [if_pos (by constructor <;> [omega; constructor] <;> [omega; constructor] <;> omega)]
      have e1 : ((pi : Int) + ((qi : Int) - pi)).toNat = qi := by omega
      have e2 : ((pj : Int) + ((qj : Int) - pj)).toNat = qj := by omega
      simp_all

theorem get_neighbors_bounds {h w : Nat} {p q : Cell}
    (hq : q ∈ get_neighbors h w p) : q.1 < h ∧ q.2 < w :=
  ⟨(mem_get_neighbors.mp hq).1, (mem_get_neighbors.mp hq).2.1⟩

theorem get_neighbors_ne {h w : Nat} {p q : Cell}
    (hq : q ∈ get_neighbors h w p) : q ≠ p :=
  (mem_get_neighbors.mp hq).2.2.1

theorem get_neighbors_symm {h w : Nat} {p q : Cell}
    (hq : q ∈ get_neighbors h w p) (hp1 : p.1 < h) (hp2 : p.2 < w) :
    p ∈ get_neighbors h w q := by
  obtain ⟨h1, h2, h3, h4, h5⟩ := mem_get_neighbors.mp hq
  exact mem_get_neighbors.mpr ⟨hp1, hp2, fun e => h3 e.symm, by omega, by omega⟩

/-! ### Counting helpers -/

theorem natCast_ne_negOne (n : Nat) : (n : Int) ≠ -1 := by
  have := Int.natCast_nonneg n
  omega

/-- Swapping one satisfying element for one non-satisfying element of a
duplicate-free list leaves a `countP` unchanged. -/
theorem countP_swap {α : Type} [DecidableEq α] (l : List α) (hl : l.Nodup)
    (P Q : α → Bool) (p q : α) (hp : p ∈ l) (hq : q ∈ l) (hpq : p ≠ q)
    (hPp : P p = true) (hPq : P q = false) (hQp : Q p = false) (hQq : Q q = true)
    (hagree : ∀ x, x ≠ p → x ≠ q → Q x = P x) :
    l.countP Q = l.countP P := by
  have h1 : l.Perm (p :: l.erase p) := List.perm_cons_erase hp
  have hq1 : q ∈ l.erase p := (List.mem_erase_of_ne (fun e => hpq e.symm)).mpr hq
  have h2 : (l.erase p).Perm (q :: (l.erase p).erase q) := List.perm_cons_erase hq1
  have h3 : l.Perm (p :: q :: (l.erase p).erase q) := h1.trans (h2.cons p)
  have hpr : p ∉ (l.erase p).erase q :=
    fun hmem => (List.Nodup.not_mem_erase hl) (List.erase_subset _ _ hmem)
  have hqr : q ∉ (l.erase p).erase q := List.Nodup.not_mem_erase (hl.erase p)
  have hrest : ((l.erase p).erase q).countP Q = ((l.erase p).erase q).countP P := by
    apply List.countP_congr
    intro x hx
    rw [hagree x (fun e => hpr (e ▸ hx)) (fun e => hqr (e ▸ hx))]
  rw [h3.countP_eq Q, h3.countP_eq P]
  simp [List.countP_cons, hPp, hPq, hQp, hQq, hrest]

/-! ### The recomputation loop -/

/-- Characterisation of the relocation recomputation: the fold leaves mines
alone, overwrites listed non-mine cells with their adjacent-mine count (counts
taken against the unchanged mine set), and leaves unlisted cells alone. -/
theorem recompute_spec (h w : Nat) :
    ∀ (cells : List Cell) (g acc : Cell → Int),
      (∀ y, acc y = -1 ↔ g y = -1) →
      ∀ x, recompute h w cells acc x =
        if acc x = -1 then acc x
        else if x ∈ cells then (count_adjacent_mines h w g x : Int)
        else acc x := by
  intro cells
  induction cells with
  | nil => intro g acc _ x; simp [recompute]
  | cons rc rest ih =>
    intro g acc hmines x
    have hstep : recompute h w (rc :: rest) acc =
        recompute h w rest
          (if acc rc ≠ -1 then
            (fun y => if y = rc then (count_adjacent_mines h w acc rc : Int) else acc y)
           else acc) := by
      simp [recompute]
    rw [hstep]
    by_cases hrc : acc rc = -1
    · rw [if_neg (by simp [hrc])]
      rw [ih g acc hmines x]
      by_cases hx : acc x = -1
      · simp [hx]
      · simp only [hx, if_neg, if_false]
        by_cases hxrc : x = rc
        · subst hxrc; exact absurd hrc hx
        · simp [List.mem_cons, hxrc]
    · rw [if_pos (by simp [hrc])]
      set acc' := fun y => if y = rc then (count_adjacent_mines h w acc rc : Int) else acc y with hacc'
      have hmines' : ∀ y, acc' y = -1 ↔ g y = -1 := by
        intro y
        by_cases hyrc : y = rc
        · subst hyrc
          simp only [hacc', if_pos rfl]
          constructor
          · intro hc; exact absurd hc (natCast_ne_negOne _)
          · intro hg; exact absurd ((hmines y).mpr hg) hrc
        · simp only [hacc', if_neg hyrc]; exact hmines y
      have hcount : count_adjacent_mines h w acc rc = count_adjacent_mines h w g rc := by
        unfold count_adjacent_mines
        apply List.countP_congr
        intro y _
        simp only [beq_iff_eq]
        constructor
        · intro hy; exact (hmines y).mp hy
        · intro hy; exact (hmines y).mpr hy
      rw [ih g acc' hmines' x]
      by_cases hxrc : x = rc
      · subst hxrc
        simp only [hacc', if_pos rfl]
        rw [if_neg (natCast_ne_negOne _), if_neg hrc]
        simp [hcount]
      · simp only [hacc', if_neg hxrc]
        by_cases hx : acc x = -1
        · simp [hx]
        · simp [hx, List.mem_cons, hxrc]

/-! ### Decomposition of `probe` -/

/-- The board state after `probe`'s first-move block. -/
def probeB1 (b : Board) (p : Cell) : Board :=
  if b.first_move then
    if b.board p = -1 then relocate { b with first_move := false } p
    else { b with first_move := false }
  else b

/-- The board state after `probe` marks the probed cell visible. -/
def probeB2 (b1 : Board) (p : Cell) : Board :=
  { b1 with visible := fun x => if x = p then true else b1.visible x }

/-- The board state after `probe`'s flood fill. -/
def probeB3 (b1 : Board) (p : Cell) : Board :=
  if (probeB2 b1 p).board p = 0 then
    { probeB2 b1 p with
      visible := flood (probeB2 b1 p).height (probeB2 b1 p).width (probeB2 b1 p).board
        (probeB2 b1 p).marked ((probeB2 b1 p).width * (probeB2 b1 p).height + 1) [p]
        (probeB2 b1 p).visible }
  else probeB2 b1 p

theorem probe_eq (b : Board) (p : Cell) :
    probe b p =
      (if (probeB1 b p).board p = -1 then
        (false, { probeB1 b p with game_over := true })
      else if (visibleCount (probeB3 (probeB1 b p) p) : Int) =
          ((probeB3 (probeB1 b p) p).width : Int) * ((probeB3 (probeB1 b p) p).height : Int) -
            ((probeB3 (probeB1 b p) p).num_mines : Int) then
        (true, { probeB3 (probeB1 b p) p with won := true })
      else (true, probeB3 (probeB1 b p) p)) := rfl

theorem probeB3_fields (b1 : Board) (p : Cell) :
    (probeB3 b1 p).board = b1.board ∧ (probeB3 b1 p).marked = b1.marked ∧
      (probeB3 b1 p).height = b1.height ∧ (probeB3 b1 p).width = b1.width ∧
      (probeB3 b1 p).num_mines = b1.num_mines ∧ (probeB3 b1 p).game_over = b1.game_over ∧
      (probeB3 b1 p).won = b1.won ∧ (probeB3 b1 p).first_move = b1.first_move := by
  unfold probeB3 probeB2
  split <;> exact ⟨rfl, rfl, rfl, rfl, rfl, rfl, rfl, rfl⟩

/-! ### Relocation lemmas -/

theorem relocate_eq (b : Board) (p q : Cell)
    (hfind : (allCells b.height b.width).find? (fun x => b.board x != -1) = some q) :
    relocate b p = { b with board := (recompute b.height b.width
      (get_neighbors b.height b.width p ++ get_neighbors b.height b.width q ++ [p, q])
      (fun x => if x = q then -1 else if x = p then 0 else b.board x)) } := by
  unfold relocate
  rw [hfind]

theorem relocate_board_mine_iff (b : Board) (p q : Cell)
    (hfind : (allCells b.height b.width).find? (fun x => b.board x != -1) = some q)
    (hp : b.board p = -1) :
    ∀ x, (relocate b p).board x = -1 ↔ (x = q ∨ (x ≠ p ∧ b.board x = -1)) := by
  have hqne : b.board q ≠ -1 := by
    have := List.find?_some hfind
    simpa using this
  have hpq : p ≠ q := fun e => hqne (e ▸ hp)
  intro x
  rw [relocate_eq b p q hfind]
  set g1 : Cell → Int := fun x => if x = q then -1 else if x = p then 0 else b.board x with hg1
  have hchar := recompute_spec b.height b.width
    (get_neighbors b.height b.width p ++ get_neighbors b.height b.width q ++ [p, q])
    g1 g1 (fun _ => Iff.rfl) x
  simp only at hchar
  dsimp only
  rw [hchar]
  by_cases hxq : x = q
  · subst hxq
    simp [hg1]
  · by_cases hxp : x = p
    · subst hxp
      have e0 : g1 x = 0 := by simp [hg1, hpq]
      rw [e0, if_neg (by norm_num)]
      constructor
      · intro hc
        split at hc
        · exact absurd hc (natCast_ne_negOne _)
        · exact absurd hc (by norm_num)
      · rintro (e | ⟨e, _⟩)
        · exact absurd e hpq
        · exact absurd rfl e
    · have e0 : g1 x = b.board x := by simp [hg1, hxq, hxp]
      rw [e0]
      by_cases hbx : b.board x = -1
      · rw [if_pos hbx]
        simp [hbx, hxp]
      · rw [if_neg hbx]
        constructor
        · intro hc
          split at hc
          · exact absurd hc (natCast_ne_negOne _)
          · exact absurd hc hbx
        · rintro (e | ⟨_, e⟩)
          · exact absurd e hxq
          · exact absurd e hbx

theorem recompute_mine_iff (h w : Nat) (cells : List Cell) (g : Cell → Int) :
    ∀ y, recompute h w cells g y = -1 ↔ g y = -1 := by
  intro y
  rw [recompute_spec h w cells g g (fun _ => Iff.rfl) y]
  by_cases hy : g y = -1
  · simp [hy]
  · rw [if_neg hy]
    split
    · simp [natCast_ne_negOne, hy]
    · simp [hy]

theorem relocate_fields (b : Board) (p : Cell) :
    (relocate b p).height = b.height ∧ (relocate b p).width = b.width ∧
      (relocate b p).num_mines = b.num_mines ∧ (relocate b p).visible = b.visible ∧
      (relocate b p).marked = b.marked ∧ (relocate b p).first_move = b.first_move ∧
      (relocate b p).game_over = b.game_over ∧ (relocate b p).won = b.won := by
  unfold relocate
  cases hf : (allCells b.height b.width).find? (fun q => b.board q != -1) with
  | none => exact ⟨rfl, rfl, rfl, rfl, rfl, rfl, rfl, rfl⟩
  | some q => exact ⟨rfl, rfl, rfl, rfl, rfl, rfl, rfl, rfl⟩

theorem relocate_board_p_ne (b : Board) (p q : Cell)
    (hfind : (allCells b.height b.width).find? (fun x => b.board x != -1) = some q)
    (hp : b.board p = -1) :
    (relocate b p).board p ≠ -1 := by
  have hqne : b.board q ≠ -1 := by simpa using List.find?_some hfind
  have hpq : p ≠ q := fun e => hqne (e ▸ hp)
  intro hc
  rcases (relocate_board_mine_iff b p q hfind hp p).mp hc with e | ⟨e, _⟩
  · exact hpq e
  · exact e rfl

theorem relocate_minesCount (b : Board) (p q : Cell)
    (hfind : (allCells b.height b.width).find? (fun x => b.board x != -1) = some q)
    (hp : b.board p = -1) (hpin : p ∈ allCells b.height b.width) :
    minesCount (relocate b p) = minesCount b := by
  have hqne : b.board q ≠ -1 := by simpa using List.find?_some hfind
  have hpq : p ≠ q := fun e => hqne (e ▸ hp)
  have hqin : q ∈ allCells b.height b.width := List.mem_of_find?_eq_some hfind
  have hiff := relocate_board_mine_iff b p q hfind hp
  have hfld := relocate_fields b p
  unfold minesCount
  rw [hfld.1, hfld.2.1]
  apply countP_swap (allCells b.height b.width) (nodup_allCells _ _)
    (fun x => b.board x == -1) (fun x => (relocate b p).board x == -1) p q hpin hqin hpq
  · simp [hp]
  · simp [hqne]
  · simp [relocate_board_p_ne b p q hfind hp]
  · simp [(hiff q).mpr (Or.inl rfl)]
  · intro x hxp hxq
    by_cases hbx : b.board x = -1
    · have : (relocate b p).board x = -1 := (hiff x).mpr (Or.inr ⟨hxp, hbx⟩)
      simp [this, hbx]
    · have : (relocate b p).board x ≠ -1 := by
        intro hc
        rcases (hiff x).mp hc with e | ⟨_, e⟩
        · exact hxq e
        · exact hbx e
      simp [this, hbx]

theorem relocate_wellFormed (b : Board) (p q : Cell)
    (hfind : (allCells b.height b.width).find? (fun x => b.board x != -1) = some q)
    (hp : b.board p = -1) (hpin : p ∈ allCells b.height b.width)
    (hwf : wellFormed b) : wellFormed (relocate b p) := by
  have hqne : b.board q ≠ -1 := by simpa using List.find?_some hfind
  have hpq : p ≠ q := fun e => hqne (e ▸ hp)
  have hfld := relocate_fields b p
  have hre := relocate_eq b p q hfind
  set aff := get_neighbors b.height b.width p ++ get_neighbors b.height b.width q ++ [p, q]
    with haff
  set g1 : Cell → Int := fun x => if x = q then -1 else if x = p then 0 else b.board x with hg1
  have hrb : (relocate b p).board = recompute b.height b.width aff g1 := by
    rw [hre]
  have hrmine : ∀ y, (relocate b p).board y = -1 ↔ g1 y = -1 := by
    intro y; rw [hrb]; exact recompute_mine_iff _ _ _ _ y
  have hcountr : ∀ x, count_adjacent_mines b.height b.width (relocate b p).board x =
      count_adjacent_mines b.height b.width g1 x := by
    intro x
    unfold count_adjacent_mines
    apply List.countP_congr
    intro y _
    simp only [beq_iff_eq]
    exact hrmine y
  intro x hxmem hxnm
  rw [hfld.1, hfld.2.1] at hxmem ⊢
  have hchar := recompute_spec b.height b.width aff g1 g1 (fun _ => Iff.rfl) x
  rw [hcountr x]
  rw [hrb] at hxnm ⊢
  rw [hchar] at hxnm ⊢
  by_cases hm : g1 x = -1
  · rw [if_pos hm] at hxnm; exact absurd hm hxnm
  · rw [if_neg hm] at hxnm ⊢
    by_cases hxa : x ∈ aff
    · rw [if_pos hxa]
    · rw [if_neg hxa] at hxnm ⊢
      have hxp : x ≠ p := by
        intro e; subst e
        exact hxa (by simp [haff])
      have hxq : x ≠ q := by
        intro e; subst e
        exact hxa (by simp [haff])
      have hxnbp : x ∉ get_neighbors b.height b.width p := fun hmem => hxa (by
        simp [haff, hmem])
      have hxnbq : x ∉ get_neighbors b.height b.width q := fun hmem => hxa (by
        simp [haff, hmem])
      have hx1 : x.1 < b.height := (mem_allCells.mp hxmem).1
      have hx2 : x.2 < b.width := (mem_allCells.mp hxmem).2
      have hg1x : g1 x = b.board x := by simp [hg1, hxp, hxq]
      rw [hg1x] at hxnm ⊢
      have hcc : count_adjacent_mines b.height b.width g1 x =
          count_adjacent_mines b.height b.width b.board x := by
        unfold count_adjacent_mines
        apply List.countP_congr
        intro y hy
        have hyp : y ≠ p := by
          intro e; subst e
          exact hxnbp (get_neighbors_symm hy hx1 hx2)
        have hyq : y ≠ q := by
          intro e; subst e
          exact hxnbq (get_neighbors_symm hy hx1 hx2)
        simp [hg1, hyp, hyq]
      rw [hcc]
      exact hwf x hxmem hxnm

theorem minesCount_congr (b1 b2 : Board) (hb : b1.board = b2.board)
    (hh : b1.height = b2.height) (hw : b1.width = b2.width) :
    minesCount b1 = minesCount b2 := by
  unfold minesCount
  rw [hb, hh, hw]

theorem wellFormed_congr (b1 b2 : Board) (hb : b1.board = b2.board)
    (hh : b1.height = b2.height) (hw : b1.width = b2.width)
    (h1 : wellFormed b1) : wellFormed b2 := by
  intro x hxmem hxnm
  have hxmem' : x ∈ allCells b1.height b1.width := by rw [hh, hw]; exact hxmem
  have hxnm' : b1.board x ≠ -1 := by rw [hb]; exact hxnm
  have hres := h1 x hxmem' hxnm'
  rw [hb, hh, hw] at hres
  exact hres

theorem exists_nonmine_find (b : Board) (hm : minesCount b < b.width * b.height) :
    ∃ q, (allCells b.height b.width).find? (fun x => b.board x != -1) = some q := by
  have hlen : (allCells b.height b.width).length = b.height * b.width :=
    length_allCells _ _
  have hlt : minesCount b < (allCells b.height b.width).length := by
    rw [hlen, Nat.mul_comm]; exact hm
  have hex : ∃ x ∈ allCells b.height b.width, (b.board x != -1) = true := by
    by_contra hno
    push_neg at hno
    have hall : ∀ x ∈ allCells b.height b.width, (fun q => b.board q == -1) x = true := by
      intro x hx
      have := hno x hx
      simpa using this
    have : minesCount b = (allCells b.height b.width).length :=
      List.countP_eq_length.mpr hall
    omega
  have : ((allCells b.height b.width).find? (fun x => b.board x != -1)).isSome :=
    List.find?_isSome.mpr hex
  exact Option.isSome_iff_exists.mp this

/-- Claim C2 (first-move safety).  For a first-move board with fewer mines
than cells and consistent counts, probing any in-range cell succeeds, never
sets `game_over`, preserves the total mine count and the count invariant, and
if the probed cell was a mine, that mine moves to the first non-mine cell in
row-major scan order while every other cell's mine status is unchanged. -/
theorem first_probe_safe (b : Board) (p : Cell)
    (hf : b.first_move = true) (hg : b.game_over = false)
    (hm : minesCount b < b.width * b.height)
    (hp1 : p.1 < b.height) (hp2 : p.2 < b.width)
    (hwf : wellFormed b) :
    (probe b p).1 = true ∧ (probe b p).2.game_over = false ∧
      minesCount (probe b p).2 = minesCount b ∧ wellFormed (probe b p).2 ∧
      (b.board p = -1 →
        ∃ q, (allCells b.height b.width).find? (fun x => b.board x != -1) = some q ∧
          (probe b p).2.board q = -1 ∧ (probe b p).2.board p ≠ -1 ∧
          ∀ x, x ≠ p → x ≠ q → ((probe b p).2.board x = -1 ↔ b.board x = -1)) := by
  have hpin : p ∈ allCells b.height b.width := mem_allCells.mpr ⟨hp1, hp2⟩
  rw [probe_eq]
  by_cases hmine : b.board p = -1
  · obtain ⟨q, hfind⟩ := exists_nonmine_find b hm
    have hB1 : probeB1 b p = relocate { b with first_move := false } p := by
      unfold probeB1
      rw [if_pos hf, if_pos hmine]
    have hfind' : (allCells ({ b with first_move := false } : Board).height
        ({ b with first_move := false } : Board).width).find?
        (fun x => ({ b with first_move := false } : Board).board x != -1) = some q := hfind
    have hne : (probeB1 b p).board p ≠ -1 := by
      rw [hB1]
      exact relocate_board_p_ne _ p q hfind' hmine
    rw [if_neg hne]
    have hfld := relocate_fields ({ b with first_move := false } : Board) p
    have h3fld := probeB3_fields (probeB1 b p) p
    have hmc : minesCount (probeB3 (probeB1 b p) p) = minesCount b := by
      have e1 : minesCount (probeB3 (probeB1 b p) p) = minesCount (probeB1 b p) :=
        minesCount_congr _ _ h3fld.1 h3fld.2.2.1 h3fld.2.2.2.1
      rw [e1, hB1]
      exact relocate_minesCount _ p q hfind' hmine hpin
    have hwf3 : wellFormed (probeB3 (probeB1 b p) p) := by
      apply wellFormed_congr (probeB1 b p) _ h3fld.1.symm h3fld.2.2.1.symm h3fld.2.2.2.1.symm
      rw [hB1]
      exact relocate_wellFormed _ p q hfind' hmine hpin hwf
    have hgo : (probeB3 (probeB1 b p) p).game_over = false := by
      rw [h3fld.2.2.2.2.2.1, hB1, hfld.2.2.2.2.2.2.1]
      exact hg
    have hbd : (probeB3 (probeB1 b p) p).board = (relocate { b with first_move := false } p).board := by
      rw [h3fld.1, hB1]
    have hiff := relocate_board_mine_iff ({ b with first_move := false } : Board) p q hfind' hmine
    split
    · refine ⟨rfl, hgo, hmc, hwf3, fun _ => ⟨q, hfind, ?_, ?_, ?_⟩⟩
      · show (probeB3 (probeB1 b p) p).board q = -1
        rw [hbd]
        exact (hiff q).mpr (Or.inl rfl)
      · show (probeB3 (probeB1 b p) p).board p ≠ -1
        rw [hbd]
        exact relocate_board_p_ne _ p q hfind' hmine
      · intro x hxp hxq
        show (probeB3 (probeB1 b p) p).board x = -1 ↔ b.board x = -1
        rw [hbd]
        constructor
        · intro hc
          rcases (hiff x).mp hc with e | ⟨_, e⟩
          · exact absurd e hxq
          · exact e
        · intro hc
          exact (hiff x).mpr (Or.inr ⟨hxp, hc⟩)
    · refine ⟨rfl, hgo, hmc, hwf3, fun _ => ⟨q, hfind, ?_, ?_, ?_⟩⟩
      · show (probeB3 (probeB1 b p) p).board q = -1
        rw [hbd]
        exact (hiff q).mpr (Or.inl rfl)
      · show (probeB3 (probeB1 b p) p).board p ≠ -1
        rw [hbd]
        exact relocate_board_p_ne _ p q hfind' hmine
      · intro x hxp hxq
        show (probeB3 (probeB1 b p) p).board x = -1 ↔ b.board x = -1
        rw [hbd]
        constructor
        · intro hc
          rcases (hiff x).mp hc with e | ⟨_, e⟩
          · exact absurd e hxq
          · exact e
        · intro hc
          exact (hiff x).mpr (Or.inr ⟨hxp, hc⟩)
  · have hB1 : probeB1 b p = { b with first_move := false } := by
      unfold probeB1
      rw [if_pos hf, if_neg hmine]
    have hne : (probeB1 b p).board p ≠ -1 := by
      rw [hB1]
      exact hmine
    rw [if_neg hne]
    have h3fld := probeB3_fields (probeB1 b p) p
    have hmc : minesCount (probeB3 (probeB1 b p) p) = minesCount b := by
      have e1 : minesCount (probeB3 (probeB1 b p) p) = minesCount (probeB1 b p) :=
        minesCount_congr _ _ h3fld.1 h3fld.2.2.1 h3fld.2.2.2.1
      rw [e1, hB1]
      rfl
    have hwf3 : wellFormed (probeB3 (probeB1 b p) p) := by
      apply wellFormed_congr (probeB1 b p) _ h3fld.1.symm h3fld.2.2.1.symm h3fld.2.2.2.1.symm
      rw [hB1]
      exact hwf
    have hgo : (probeB3 (probeB1 b p) p).game_over = false := by
      rw [h3fld.2.2.2.2.2.1, hB1]
      exact hg
    split
    · exact ⟨rfl, hgo, hmc, hwf3, fun hc => absurd hc hmine⟩
    · exact ⟨rfl, hgo, hmc, hwf3, fun hc => absurd hc hmine⟩

/-- Witness for C2: on a 2×2 board whose single mine sits at the probed
corner, the first probe succeeds and relocates the mine. -/
def c2Board : Board :=
  { width := 2, height := 2, num_mines := 1,
    board := fun p => if p = (0, 0) then -1 else 1,
    visible := fun _ => false, marked := fun _ => false,
    first_move := true, game_over := false, won := false }

theorem first_probe_safe_witness :
    (c2Board.first_move = true ∧ c2Board.game_over = false ∧
      minesCount c2Board < c2Board.width * c2Board.height ∧ wellFormed c2Board) ∧
      ((probe c2Board (0, 0)).1 = true ∧ (probe c2Board (0, 0)).2.game_over = false ∧
        minesCount (probe c2Board (0, 0)).2 = minesCount c2Board ∧
        wellFormed (probe c2Board (0, 0)).2 ∧
        (c2Board.board (0, 0) = -1 →
          ∃ q, (allCells c2Board.height c2Board.width).find?
              (fun x => c2Board.board x != -1) = some q ∧
            (probe c2Board (0, 0)).2.board q = -1 ∧
            (probe c2Board (0, 0)).2.board (0, 0) ≠ -1 ∧
            ∀ x, x ≠ (0, 0) → x ≠ q →
              ((probe c2Board (0, 0)).2.board x = -1 ↔ c2Board.board x = -1))) :=
  ⟨⟨rfl, rfl, by decide, by decide⟩,
    first_probe_safe c2Board (0, 0) rfl rfl (by decide) (by decide) (by decide) (by decide)⟩

/-! ### Terminal flags are never consulted (C7) -/

theorem relocate_flags_comm (b : Board) (p : Cell) (g w : Bool) :
    relocate { b with game_over := g, won := w } p =
      { relocate b p with game_over := g, won := w } := by
  unfold relocate
  dsimp only
  cases hf : (allCells b.height b.width).find? (fun q => b.board q != -1) with
  | none => rfl
  | some q => rfl

theorem probeB1_flags_comm (b : Board) (p : Cell) (g w : Bool) :
    probeB1 { b with game_over := g, won := w } p =
      { probeB1 b p with game_over := g, won := w } := by
  unfold probeB1
  dsimp only
  by_cases hfm : b.first_move
  · rw [if_pos hfm, if_pos hfm]
    by_cases hbp : b.board p = -1
    · rw [if_pos hbp, if_pos hbp]
      exact relocate_flags_comm { b with first_move := false } p g w
    · rw [if_neg hbp, if_neg hbp]
  · rw [if_neg hfm, if_neg hfm]

theorem probeB3_flags_comm (b1 : Board) (p : Cell) (g w : Bool) :
    probeB3 { b1 with game_over := g, won := w } p =
      { probeB3 b1 p with game_over := g, won := w } := by
  unfold probeB3 probeB2
  dsimp only
  by_cases hc : b1.board p = 0
  · rw [if_pos hc, if_pos hc]
  · rw [if_neg hc, if_neg hc]

/-- Claim C7 (corrected).  `probe` and `mark_mine` never consult the
`game_over`/`won` flags: on a terminal board they behave exactly as on the
same board with any other flag values — `mark_mine` still sets the marked
flag, and `probe`'s effect on the grid, visibility, marks and first-move flag
is independent of the terminal flags.  The no-op behaviour at terminal states
is supplied by the driving loop, which stops once a flag is set, not by the
board operations. -/
theorem terminal_ops_not_guarded (b : Board) (p : Cell) (g w : Bool) :
    ((probe { b with game_over := g, won := w } p).1 = (probe b p).1 ∧
      (probe { b with game_over := g, won := w } p).2.board = (probe b p).2.board ∧
      (probe { b with game_over := g, won := w } p).2.visible = (probe b p).2.visible ∧
      (probe { b with game_over := g, won := w } p).2.marked = (probe b p).2.marked ∧
      (probe { b with game_over := g, won := w } p).2.first_move = (probe b p).2.first_move) ∧
    (mark_mine { b with game_over := g, won := w } p).marked p = true ∧
    (mark_mine { b with game_over := g, won := w } p).game_over = g ∧
    (mark_mine { b with game_over := g, won := w } p).won = w ∧
    (mark_mine { b with game_over := g, won := w } p).visible = b.visible := by
  refine ⟨?_, by simp [mark_mine], rfl, rfl, rfl⟩
  rw [probe_eq, probe_eq]
  have hB1 := probeB1_flags_comm b p g w
  have hB3 := probeB3_flags_comm (probeB1 b p) p g w
  rw [hB1, hB3]
  have hbp : ({ probeB1 b p with game_over := g, won := w } : Board).board p =
      (probeB1 b p).board p := rfl
  by_cases hmine : (probeB1 b p).board p = -1
  · rw [if_pos hmine, if_pos (hbp.trans hmine)]
    exact ⟨rfl, rfl, rfl, rfl, rfl⟩
  · rw [if_neg hmine, if_neg (fun hc => hmine (hbp.symm.trans hc))]
    have hvc : (visibleCount { probeB3 (probeB1 b p) p with game_over := g, won := w } : Int) =
        (visibleCount (probeB3 (probeB1 b p) p) : Int) := rfl
    constructor
    · split <;> split <;> rfl
    constructor
    · split <;> split <;> rfl
    constructor
    · split <;> split <;> rfl
    constructor
    · split <;> split <;> rfl
    · split <;> split <;> rfl

/-- Counterexample to C7 as stated: a lost board (`game_over = true`) is not
frozen — probing a safe cell still reveals it and `mark_mine` still sets the
mark. -/
def c7Board : Board :=
  { width := 2, height := 1, num_mines := 1,
    board := fun p => if p = (0, 0) then -1 else 1,
    visible := fun _ => false, marked := fun _ => false,
    first_move := false, game_over := true, won := false }

theorem terminal_board_not_frozen :
    c7Board.game_over = true ∧
      (probe c7Board (0, 1)).2.visible (0, 1) = true ∧ c7Board.visible (0, 1) = false ∧
      (mark_mine c7Board (0, 0)).marked (0, 0) = true ∧ c7Board.marked (0, 0) = false := by
  exact ⟨rfl, by decide, rfl, by decide, rfl⟩

/-! ### The win check (C8) -/

/-- Claim C8 (corrected, probe part).  `probe` performs the win check: when a
successful probe (including its flood fill) leaves exactly
`width·height − num_mines` cells visible, the `won` flag is set. -/
theorem probe_sets_won (b : Board) (p : Cell)
    (hres : (probe b p).1 = true)
    (hcount : (visibleCount (probe b p).2 : Int) =
      ((probe b p).2.width : Int) * ((probe b p).2.height : Int) -
        ((probe b p).2.num_mines : Int)) :
    (probe b p).2.won = true := by
  rw [probe_eq] at hres hcount ⊢
  by_cases hmine : (probeB1 b p).board p = -1
  · rw [if_pos hmine] at hres
    exact absurd hres (by simp)
  · rw [if_neg hmine] at hcount ⊢
    split at hcount
    · split
      · rfl
      · next hc1 hc2 => exact absurd hc1 hc2
    · next hc1 => exact absurd hcount hc1

/-- Witness for C8's probe part: on a 1×2 board with one mine, probing the
safe cell reveals the last non-mine cell and sets `won`. -/
def c8WinBoard : Board :=
  { width := 2, height := 1, num_mines := 1,
    board := fun p => if p = (0, 1) then -1 else 1,
    visible := fun _ => false, marked := fun _ => false,
    first_move := false, game_over := false, won := false }

theorem probe_sets_won_witness :
    ((probe c8WinBoard (0, 0)).1 = true ∧
      (visibleCount (probe c8WinBoard (0, 0)).2 : Int) =
        ((probe c8WinBoard (0, 0)).2.width : Int) *
          ((probe c8WinBoard (0, 0)).2.height : Int) -
          ((probe c8WinBoard (0, 0)).2.num_mines : Int)) ∧
      (probe c8WinBoard (0, 0)).2.won = true :=
  ⟨⟨by decide, by decide⟩, probe_sets_won c8WinBoard (0, 0) (by decide) (by decide)⟩

/-- Counterexample to C8 as stated: the simplifier's auto-reveal performs no
win check.  On a 2×2 board with its mine marked, simplifying the constraint
`{(0,1),(1,1)} = 1` reveals the last safe cell `(0,1)`, after which all
`width·height − mineCount` non-mine cells are visible yet `won` is still
false. -/
def c8Solver : Solver :=
  ⟨{ width := 2, height := 2, num_mines := 1,
     board := fun p => if p = (1, 1) then -1 else 1,
     visible := fun p => (p = (0, 0) ∨ p = (1, 0) : Bool),
     marked := fun p => (p = (1, 1) : Bool),
     first_move := false, game_over := false, won := false },
   [⟨[(0, 1), (1, 1)], 1⟩]⟩

theorem simplify_reveal_misses_win_check :
    (simplify_constraints c8Solver).board.visible (0, 1) = true ∧
      (visibleCount (simplify_constraints c8Solver).board : Int) =
        ((simplify_constraints c8Solver).board.width : Int) *
          ((simplify_constraints c8Solver).board.height : Int) -
          ((simplify_constraints c8Solver).board.num_mines : Int) ∧
      (simplify_constraints c8Solver).board.won = false := by
  exact ⟨by decide, by decide, by decide⟩

/-! ### Board creation (C9) -/

theorem countP_mem_eq_length (l s : List Cell)
    (hl : l.Nodup) (hs : s.Nodup) (hsub : ∀ x ∈ s, x ∈ l) :
    l.countP (fun x => s.contains x) = s.length := by
  rw [List.countP_eq_length_filter]
  have hperm : (l.filter (fun x => s.contains x)).Perm s := by
    rw [List.perm_ext_iff_of_nodup (hl.filter _) hs]
    intro a
    simp only [List.mem_filter]
    constructor
    · rintro ⟨_, hc⟩
      simpa using hc
    · intro ha
      exact ⟨hsub a ha, by simpa using ha⟩
  exact hperm.length_eq

/-- Claim C9 (corrected).  Board creation performs no validation of its own:
it succeeds exactly when `random.sample` can draw `num_mines` distinct
in-range positions, i.e. whenever `num_mines ≤ width·height`, and then places
exactly `num_mines` mines; only `num_mines > width·height` fails (the
`ValueError` raised by `random.sample`). -/
theorem make_board_spec (width height num_mines : Nat) (sample : List Cell) :
    ((sample.Nodup ∧ sample.length = num_mines ∧ ∀ p ∈ sample, p ∈ allCells height width) →
      ∃ b, make_board width height num_mines sample = some b ∧
        minesCount b = num_mines ∧ b.width = width ∧ b.height = height ∧
        b.num_mines = num_mines ∧ b.first_move = true ∧ b.game_over = false ∧
        b.won = false) ∧
    (num_mines > width * height → make_board width height num_mines sample = none) := by
  constructor
  · rintro hvalid
    rw [make_board, if_pos hvalid]
    refine ⟨_, rfl, ?_, rfl, rfl, rfl, rfl, rfl, rfl⟩
    obtain ⟨hnd, hlen, hsub⟩ := hvalid
    unfold minesCount
    dsimp only
    have hpt : ∀ q ∈ allCells height width,
        ((if (if sample.contains q then (-1 : Int) else 0) = -1 then (-1 : Int)
          else (count_adjacent_mines height width
            (fun p => if sample.contains p then -1 else 0) q : Int)) == -1) =
        sample.contains q := by
      intro q _
      by_cases hq : sample.contains q = true
      · rw [hq]
        simp
      · rw [Bool.not_eq_true] at hq
        rw [hq]
        simp [natCast_ne_negOne]
    rw [List.countP_congr (fun x hx => by rw [hpt x hx])]
    rw [← hlen]
    have hfin := countP_mem_eq_length (allCells height width) sample
      (nodup_allCells _ _) hnd hsub
    exact hfin
  · intro hgt
    rw [make_board]
    rw [if_neg]
    rintro ⟨hnd, hlen, hsub⟩
    have : sample.length ≤ (allCells height width).length :=
      (hnd.subperm (fun x hx => hsub x hx)).length_le
    rw [length_allCells, Nat.mul_comm] at this
    omega

/-- Counterexample to C9 as stated: a 1×1 board with 1 mine
(`mineCount = width·height`) and a 0-width board are both created
successfully; no `InvalidConfiguration` failure exists in the code. -/
theorem make_board_accepts_invalid :
    ((make_board 1 1 1 [(0, 0)]).map minesCount = some 1) ∧
      (make_board 0 3 0 []).isSome = true := by
  exact ⟨by decide, by decide⟩

theorem make_board_spec_witness :
    (([((0 : Nat), (0 : Nat))] : List Cell).Nodup ∧
        ([((0 : Nat), (0 : Nat))] : List Cell).length = 1 ∧
        ∀ p ∈ ([((0 : Nat), (0 : Nat))] : List Cell), p ∈ allCells 2 2) ∧
      (∃ b, make_board 2 2 1 [((0 : Nat), (0 : Nat))] = some b ∧
        minesCount b = 1 ∧ b.width = 2 ∧ b.height = 2 ∧ b.num_mines = 1 ∧
        b.first_move = true ∧ b.game_over = false ∧ b.won = false) ∧
      ((2 : Nat) > 1 * 1 → make_board 1 1 2 [((0 : Nat), (0 : Nat))] = none) :=
  ⟨by decide, (make_board_spec 2 2 1 [(0, 0)]).1 (by decide),
    (make_board_spec 1 1 2 [(0, 0)]).2⟩

/-! ### Flood-fill safety (C10) -/

theorem flood_fold_safe (h w : Nat) (g : Cell → Int) (marked : Cell → Bool) :
    ∀ (ns : List Cell) (vis0 : Cell → Bool) (q0 : List Cell),
      (∀ n ∈ ns, n.1 < h ∧ n.2 < w ∧ g n ≠ -1) →
      (∀ x, x.1 < h → x.2 < w → vis0 x = true → g x ≠ -1) →
      (∀ r ∈ q0, r.1 < h ∧ r.2 < w ∧ g r = 0) →
      (∀ x, x.1 < h → x.2 < w →
        (ns.foldl (fun (acc : (Cell → Bool) × List Cell) n =>
          if acc.1 n = false ∧ marked n = false then
            (fun y => if y = n then true else acc.1 y,
             if g n = 0 then acc.2 ++ [n] else acc.2)
          else acc) (vis0, q0)).1 x = true → g x ≠ -1) ∧
      (∀ r ∈ (ns.foldl (fun (acc : (Cell → Bool) × List Cell) n =>
          if acc.1 n = false ∧ marked n = false then
            (fun y => if y = n then true else acc.1 y,
             if g n = 0 then acc.2 ++ [n] else acc.2)
          else acc) (vis0, q0)).2, r.1 < h ∧ r.2 < w ∧ g r = 0) := by
  intro ns
  induction ns with
  | nil => intro vis0 q0 _ hvis hq; exact ⟨hvis, hq⟩
  | cons n ns ih =>
    intro vis0 q0 hns hvis hq
    rw [List.foldl_cons]
    by_cases hcond : vis0 n = false ∧ marked n = false
    · rw [if_pos hcond]
      apply ih
      · intro m hm; exact hns m (List.mem_cons_of_mem n hm)
      · intro x hx1 hx2 hvx
        by_cases hxn : x = n
        · subst hxn; exact (hns x (List.mem_cons_self _ _)).2.2
        · rw [if_neg hxn] at hvx; exact hvis x hx1 hx2 hvx
      · intro r hr
        split at hr
        next hz =>
          rcases List.mem_append.mp hr with hr | hr
          · exact hq r hr
          · rcases List.mem_singleton.mp hr with rfl
            exact ⟨(hns r (List.mem_cons_self _ _)).1,
              (hns r (List.mem_cons_self _ _)).2.1, hz⟩
        next => exact hq r hr
    · rw [if_neg hcond]
      exact ih vis0 q0 (fun m hm => hns m (List.mem_cons_of_mem n hm)) hvis hq

theorem flood_safe (h w : Nat) (g : Cell → Int) (marked : Cell → Bool)
    (hwf : ∀ x, x.1 < h → x.2 < w → g x ≠ -1 →
      g x = (count_adjacent_mines h w g x : Int)) :
    ∀ (fuel : Nat) (queue : List Cell) (vis : Cell → Bool),
      (∀ r ∈ queue, r.1 < h ∧ r.2 < w ∧ g r = 0) →
      (∀ x, x.1 < h → x.2 < w → vis x = true → g x ≠ -1) →
      ∀ x, x.1 < h → x.2 < w → flood h w g marked fuel queue vis x = true → g x ≠ -1 := by
  intro fuel
  induction fuel with
  | zero => intro queue vis _ hvis x hx1 hx2 hfl; exact hvis x hx1 hx2 hfl
  | succ fuel ih =>
    intro queue vis hq hvis x hx1 hx2 hfl
    match queue with
    | [] => exact hvis x hx1 hx2 hfl
    | r :: rest =>
      have hr := hq r (List.mem_cons_self _ _)
      have hcount : count_adjacent_mines h w g r = 0 := by
        have := hwf r hr.1 hr.2.1 (by rw [hr.2.2]; norm_num)
        rw [hr.2.2] at this
        omega
      have hnbr : ∀ n ∈ get_neighbors h w r, n.1 < h ∧ n.2 < w ∧ g n ≠ -1 := by
        intro n hn
        have hb := get_neighbors_bounds hn
        refine ⟨hb.1, hb.2, ?_⟩
        have := List.countP_eq_zero.mp hcount n hn
        simpa using this
      have hfold := flood_fold_safe h w g marked (get_neighbors h w r) vis []
        hnbr hvis (by intro r' hr'; exact absurd hr' (List.not_mem_nil r'))
      rw [flood] at hfl
      exact ih _ _
        (by
          intro r' hr'
          rcases List.mem_append.mp hr' with hr' | hr'
          · exact hq r' (List.mem_cons_of_mem r hr')
          · exact hfold.2 r' hr')
        hfold.1 x hx1 hx2 hfl

theorem probeB3_visible (b1 : Board) (p : Cell) :
    (probeB3 b1 p).visible =
      if b1.board p = 0 then
        flood b1.height b1.width b1.board b1.marked (b1.width * b1.height + 1) [p]
          (fun x => if x = p then true else b1.visible x)
      else (fun x => if x = p then true else b1.visible x) := by
  unfold probeB3 probeB2
  dsimp only
  split
  · rfl
  · rfl

/-- Claim C10.  `probe` preserves the invariant that no visible cell is a
mine (after the first move, on a board with consistent counts): probing a
mine sets `game_over` without revealing anything, and the flood fill only
reveals neighbours of zero-count cells, which are never mines. -/
theorem probe_no_visible_mine (b : Board) (p : Cell)
    (hwf : wellFormed b) (hfm : b.first_move = false)
    (hp1 : p.1 < b.height) (hp2 : p.2 < b.width)
    (hinv : ∀ q, q.1 < b.height → q.2 < b.width → b.visible q = true → b.board q ≠ -1) :
    (b.board p = -1 → (probe b p).2.visible = b.visible ∧ (probe b p).2.game_over = true) ∧
      (∀ q, q.1 < b.height → q.2 < b.width →
        (probe b p).2.visible q = true → b.board q ≠ -1) := by
  have hB1 : probeB1 b p = b := by
    unfold probeB1
    rw [if_neg (by rw [hfm]; exact Bool.false_ne_true)]
  have hwf' : ∀ x, x.1 < b.height → x.2 < b.width → b.board x ≠ -1 →
      b.board x = (count_adjacent_mines b.height b.width b.board x : Int) := by
    intro x hx1 hx2 hxnm
    exact hwf x (mem_allCells.mpr ⟨hx1, hx2⟩) hxnm
  rw [probe_eq, hB1]
  by_cases hmine : b.board p = -1
  · rw [if_pos hmine]
    exact ⟨fun _ => ⟨rfl, rfl⟩, fun q hq1 hq2 hv => hinv q hq1 hq2 hv⟩
  · rw [if_neg hmine]
    refine ⟨fun hc => absurd hc hmine, ?_⟩
    have hvis3 : ∀ q, q.1 < b.height → q.2 < b.width →
        (probeB3 b p).visible q = true → b.board q ≠ -1 := by
      rw [probeB3_visible]
      by_cases hz : b.board p = 0
      · rw [if_pos hz]
        intro q hq1 hq2 hv
        apply flood_safe b.height b.width b.board b.marked hwf'
          (b.width * b.height + 1) [p] (fun x => if x = p then true else b.visible x)
          ?_ ?_ q hq1 hq2 hv
        · intro r hr
          rcases List.mem_singleton.mp hr with rfl
          exact ⟨hp1, hp2, hz⟩
        · intro x hx1 hx2 hvx
          by_cases hxp : x = p
          · subst hxp; exact hmine
          · have hvx' : (if x = p then true else b.visible x) = true := hvx
            rw [if_neg hxp] at hvx'
            exact hinv x hx1 hx2 hvx' 
      · rw [if_neg hz]
        intro q hq1 hq2 hv
        by_cases hqp : q = p
        · subst hqp; exact hmine
        · have hv' : (if q = p then true else b.visible q) = true := hv
          rw [if_neg hqp] at hv'
          exact hinv q hq1 hq2 hv' 
    intro q hq1 hq2
    split
    · exact fun hv => hvis3 q hq1 hq2 hv
    · exact fun hv => hvis3 q hq1 hq2 hv

/-- Witness for C10: a 2×2 board, one mine, no visible cells; probing the far
corner floods and reveals only non-mines. -/
def c10Board : Board :=
  { width := 2, height := 2, num_mines := 1,
    board := fun p => if p = (0, 0) then -1 else 1,
    visible := fun _ => false, marked := fun _ => false,
    first_move := false, game_over := false, won := false }

theorem probe_no_visible_mine_witness :
    (wellFormed c10Board ∧ c10Board.first_move = false ∧
      (∀ q, q.1 < c10Board.height → q.2 < c10Board.width →
        c10Board.visible q = true → c10Board.board q ≠ -1)) ∧
      ((c10Board.board (1, 1) = -1 →
          (probe c10Board (1, 1)).2.visible = c10Board.visible ∧
            (probe c10Board (1, 1)).2.game_over = true) ∧
        (∀ q, q.1 < c10Board.height → q.2 < c10Board.width →
          (probe c10Board (1, 1)).2.visible q = true → c10Board.board q ≠ -1)) :=
  ⟨⟨by decide, rfl, fun q _ _ hv => by simp [c10Board] at hv⟩,
    probe_no_visible_mine c10Board (1, 1) (by decide) rfl (by decide) (by decide)
      (fun q _ _ hv => by simp [c10Board] at hv)⟩

/-! ### Enumeration lemmas (C1, C3) -/

/-- All bit-vectors of length `n` in the order the backtracking visits the
leaves: `0` (safe) branches before `1` (mine) branches, first variable
outermost. -/
def worlds : Nat → List (List Bool)
  | 0 => [[]]
  | n + 1 => ((worlds n).map (fun bv => false :: bv)) ++ ((worlds n).map (fun bv => true :: bv))

theorem mem_worlds : ∀ {n : Nat} {bv : List Bool}, bv ∈ worlds n ↔ bv.length = n := by
  intro n
  induction n with
  | zero => intro bv; simp [worlds, List.length_eq_zero]
  | succ n ih =>
    intro bv
    simp only [worlds, List.mem_append, List.mem_map]
    constructor
    · rintro (⟨tl, htl, rfl⟩ | ⟨tl, htl, rfl⟩) <;> simp [ih.mp htl]
    · intro hlen
      match bv with
      | [] => simp at hlen
      | x :: tl =>
        have : tl.length = n := by simpa using hlen
        cases x
        · exact Or.inl ⟨tl, ih.mpr this, rfl⟩
        · exact Or.inr ⟨tl, ih.mpr this, rfl⟩

theorem nodup_worlds : ∀ n : Nat, (worlds n).Nodup := by
  intro n
  induction n with
  | zero => simp [worlds]
  | succ n ih =>
    rw [worlds]
    apply List.Nodup.append
    · exact ih.map (fun a b hab => by simpa using hab)
    · exact ih.map (fun a b hab => by simpa using hab)
    · simp only [List.disjoint_left, List.mem_map]
      rintro x ⟨a, _, rfl⟩ ⟨b, _, hx⟩
      simp at hx

theorem solveWorlds_eq (cs : List Constraint) :
    ∀ (rest : List Cell) (pre : List (Cell × Bool)),
      solveWorlds cs rest pre =
        ((worlds rest.length).map (fun bv => pre ++ rest.zip bv)).filter (checkAll cs) := by
  intro rest
  induction rest with
  | nil =>
    intro pre
    show (if checkAll cs pre then [pre] else []) = _
    simp only [List.length_nil, worlds, List.map_cons, List.map_nil, List.zip_nil_right,
      List.append_nil]
    by_cases hc : checkAll cs pre
    · rw [if_pos hc, List.filter_cons, if_pos hc]; rfl
    · rw [if_neg hc, List.filter_cons]
      rw [if_neg hc]
      rfl
  | cons v vs ih =>
    intro pre
    show solveWorlds cs vs (pre ++ [(v, false)]) ++ solveWorlds cs vs (pre ++ [(v, true)]) = _
    rw [ih, ih]
    show _ = ((worlds (vs.length + 1)).map (fun bv => pre ++ (v :: vs).zip bv)).filter
      (checkAll cs)
    rw [worlds, List.map_append, List.filter_append, List.map_map, List.map_map]
    congr 1
    · congr 1
      apply List.map_congr_left
      intro bv _
      show (pre ++ [(v, false)]) ++ vs.zip bv = pre ++ ((v :: vs).zip (false :: bv))
      rw [List.zip_cons_cons, List.append_assoc]
      rfl
    · congr 1
      apply List.map_congr_left
      intro bv _
      show (pre ++ [(v, true)]) ++ vs.zip bv = pre ++ ((v :: vs).zip (true :: bv))
      rw [List.zip_cons_cons, List.append_assoc]
      rfl

theorem ofFn_get_cast {n : Nat} (bv : List Bool) (hlen : bv.length = n) :
    List.ofFn (fun i : Fin n => bv.get ⟨i.1, by rw [hlen]; exact i.2⟩) = bv := by
  subst hlen
  have e : (fun i : Fin bv.length => bv.get ⟨i.1, i.2⟩) = bv.get := by
    funext i
    rfl
  rw [e]
  exact List.ofFn_get bv

theorem countP_worlds_card (n : Nat) (Q : List Bool → Bool) :
    (worlds n).countP Q =
      ((Finset.univ : Finset (Fin n → Bool)).filter (fun f => Q (List.ofFn f) = true)).card := by
  rw [List.countP_eq_length_filter]
  have hnd : ((worlds n).filter Q).Nodup := (nodup_worlds n).filter _
  have hmemW : ∀ bv, bv ∈ (⟨((worlds n).filter Q : List (List Bool)), hnd⟩ : Finset (List Bool)) ↔
      bv.length = n ∧ Q bv = true := by
    intro bv
    show bv ∈ ((worlds n).filter Q) ↔ _
    rw [List.mem_filter, mem_worlds]
  have hlen : ((worlds n).filter Q).length =
      (⟨((worlds n).filter Q : List (List Bool)), hnd⟩ : Finset (List Bool)).card := rfl
  rw [hlen]
  refine (Finset.card_bij (fun (f : Fin n → Bool) _ => List.ofFn f) ?_ ?_ ?_).symm
  · intro f hf
    rw [hmemW]
    exact ⟨List.length_ofFn f, (Finset.mem_filter.mp hf).2⟩
  · intro f hf g hg hfg
    exact List.ofFn_inj.mp hfg
  · intro bv hbv
    obtain ⟨hlenbv, hQ⟩ := (hmemW bv).mp hbv
    refine ⟨fun i => bv.get ⟨i.1, by rw [hlenbv]; exact i.2⟩, ?_, ofFn_get_cast bv hlenbv⟩
    apply Finset.mem_filter.mpr
    refine ⟨Finset.mem_univ _, ?_⟩
    rw [ofFn_get_cast bv hlenbv]
    exact hQ

theorem dedup_fold_nodup :
    ∀ (vs acc : List Cell), acc.Nodup →
      (vs.foldl (fun a v => if a.contains v then a else a ++ [v]) acc).Nodup := by
  intro vs
  induction vs with
  | nil => intro acc h; exact h
  | cons v vs ih =>
    intro acc h
    rw [List.foldl_cons]
    by_cases hc : acc.contains v
    · rw [if_pos hc]; exact ih acc h
    · rw [if_neg hc]
      apply ih
      apply List.Nodup.append h (List.nodup_singleton v)
      simp only [List.disjoint_left, List.mem_singleton]
      rintro x hx rfl
      exact hc (by simpa using hx)

theorem dedup_fold_mem :
    ∀ (vs acc : List Cell) (x : Cell), x ∈ acc ∨ x ∈ vs →
      x ∈ vs.foldl (fun a v => if a.contains v then a else a ++ [v]) acc := by
  intro vs
  induction vs with
  | nil =>
    intro acc x hx
    rcases hx with hx | hx
    · exact hx
    · exact absurd hx (List.not_mem_nil x)
  | cons v vs ih =>
    intro acc x hx
    rw [List.foldl_cons]
    by_cases hc : acc.contains v
    · rw [if_pos hc]
      apply ih
      rcases hx with hx | hx
      · exact Or.inl hx
      · rcases List.mem_cons.mp hx with rfl | hx
        · exact Or.inl (by simpa using hc)
        · exact Or.inr hx
    · rw [if_neg hc]
      apply ih
      rcases hx with hx | hx
      · exact Or.inl (List.mem_append_left _ hx)
      · rcases List.mem_cons.mp hx with rfl | hx
        · exact Or.inl (List.mem_append_right _ (List.mem_singleton_self x))
        · exact Or.inr hx

theorem allVarsOf_nodup (cs : List Constraint) : (allVarsOf cs).Nodup := by
  unfold allVarsOf
  suffices h : ∀ (cs : List Constraint) (acc : List Cell), acc.Nodup →
      (cs.foldl (fun acc c =>
        c.vars.foldl (fun a v => if a.contains v then a else a ++ [v]) acc) acc).Nodup by
    exact h cs [] List.nodup_nil
  intro cs
  induction cs with
  | nil => intro acc h; exact h
  | cons c cs ih =>
    intro acc h
    rw [List.foldl_cons]
    exact ih _ (dedup_fold_nodup c.vars acc h)

theorem mem_allVarsOf {cs : List Constraint} {c : Constraint} {v : Cell}
    (hc : c ∈ cs) (hv : v ∈ c.vars) : v ∈ allVarsOf cs := by
  unfold allVarsOf
  suffices h : ∀ (cs : List Constraint) (acc : List Cell),
      ((∃ c ∈ cs, v ∈ c.vars) ∨ v ∈ acc) →
      v ∈ cs.foldl (fun acc c =>
        c.vars.foldl (fun a u => if a.contains u then a else a ++ [u]) acc) acc by
    exact h cs [] (Or.inl ⟨c, hc, hv⟩)
  intro cs'
  induction cs' with
  | nil =>
    rintro acc (⟨c', hc', _⟩ | hacc)
    · exact absurd hc' (List.not_mem_nil c')
    · exact hacc
  | cons c' cs' ih =>
    rintro acc (⟨c'', hc'', hv''⟩ | hacc)
    · rw [List.foldl_cons]
      rcases List.mem_cons.mp hc'' with rfl | hc''
      · exact ih _ (Or.inr (dedup_fold_mem c''.vars acc v (Or.inr hv'')))
      · exact ih _ (Or.inl ⟨c'', hc'', hv''⟩)
    · rw [List.foldl_cons]
      exact ih _ (Or.inr (dedup_fold_mem c'.vars acc v (Or.inl hacc)))

/-- Looking a variable up in the zip of a duplicate-free variable list with
its pointwise image recovers the image. -/
theorem lookupD_zip_map (vars : List Cell) (f : Cell → Bool) (v : Cell) (d : Bool)
    (hnd : vars.Nodup) (hv : v ∈ vars) :
    lookupD (vars.zip (vars.map f)) v d = f v := by
  induction vars with
  | nil => exact absurd hv (List.not_mem_nil v)
  | cons u rest ih =>
    rw [List.map_cons, List.zip_cons_cons]
    unfold lookupD
    rw [List.find?]
    by_cases huv : u = v
    · subst huv
      simp
    · have : ((u, f u).1 == v) = false := by
        simpa using huv
      rw [this]
      have hv' : v ∈ rest := by
        rcases List.mem_cons.mp hv with rfl | hv'
        · exact absurd rfl huv
        · exact hv'
      have := ih (List.Nodup.of_cons hnd) hv'
      unfold lookupD at this
      exact this

/-- "Exact" satisfaction, as the claims state it: under safe/mine assignment
`σ`, every constraint's mine-count over its variables equals its target. -/
def satisfiesExactly (cs : List Constraint) (σ : Cell → Bool) : Prop :=
  ∀ c ∈ cs, ((c.vars.countP σ : Int) = c.value)

instance (cs : List Constraint) (σ : Cell → Bool) : Decidable (satisfiesExactly cs σ) := by
  unfold satisfiesExactly; infer_instance

/-- The safe/mine assignment over the variable list `vars` encoded by a
function `Fin vars.length → Bool` (true = mine), read back the way the
enumeration leaves read `assigned_vars`. -/
def assignOfFn (vars : List Cell) (f : Fin vars.length → Bool) : Cell → Bool :=
  fun v => lookupD (vars.zip (List.ofFn f)) v false

theorem checkAll_iff (cs : List Constraint) (a : List (Cell × Bool)) :
    checkAll cs a = true ↔ satisfiesExactly cs (fun v => lookupD a v false) := by
  unfold checkAll satisfiesExactly
  rw [List.all_eq_true]
  constructor
  · intro h c hc
    have := h c hc
    simpa using this
  · intro h c hc
    simpa using h c hc

/-- Claim C3 (enumeration completeness): `total_solutions` is exactly the
number of assignments of the component's variables that satisfy every
constraint exactly, and `var_is_mine_count[v]` is exactly the number of those
assignments in which `v` is a mine. -/
theorem enumeration_counts (cs : List Constraint) :
    totalSolutions cs (allVarsOf cs) =
      (Finset.univ.filter (fun f : Fin (allVarsOf cs).length → Bool =>
        satisfiesExactly cs (assignOfFn (allVarsOf cs) f))).card ∧
    ∀ v ∈ allVarsOf cs,
      varIsMineCount cs (allVarsOf cs) v =
        (Finset.univ.filter (fun f : Fin (allVarsOf cs).length → Bool =>
          satisfiesExactly cs (assignOfFn (allVarsOf cs) f) ∧
            assignOfFn (allVarsOf cs) f v = true)).card := by
  have hsw := solveWorlds_eq cs (allVarsOf cs) []
  have hg : (fun bv => ([] : List (Cell × Bool)) ++ (allVarsOf cs).zip bv) =
      (fun bv => (allVarsOf cs).zip bv) := by
    funext bv
    exact List.nil_append _
  rw [hg] at hsw
  constructor
  · unfold totalSolutions
    rw [hsw, ← List.countP_eq_length_filter, List.countP_map, countP_worlds_card]
    apply congrArg
    apply Finset.filter_congr
    intro f _
    show checkAll cs ((allVarsOf cs).zip (List.ofFn f)) = true ↔ _
    rw [checkAll_iff]
    rfl
  · intro v hv
    unfold varIsMineCount
    rw [hsw, List.countP_filter, List.countP_map, countP_worlds_card]
    apply congrArg
    apply Finset.filter_congr
    intro f _
    show (lookupD ((allVarsOf cs).zip (List.ofFn f)) v false &&
        checkAll cs ((allVarsOf cs).zip (List.ofFn f))) = true ↔ _
    rw [Bool.and_eq_true, checkAll_iff]
    unfold assignOfFn
    constructor
    · rintro ⟨h1, h2⟩; exact ⟨h2, h1⟩
    · rintro ⟨h1, h2⟩; exact ⟨h2, h1⟩

/-- Witness for C3 at a concrete component: one constraint `{(0,1)} = 1`. -/
theorem enumeration_counts_witness :
    ((0, 1) ∈ allVarsOf [⟨[((0 : Nat), (1 : Nat))], 1⟩] ∧
      totalSolutions [⟨[((0 : Nat), (1 : Nat))], 1⟩]
        (allVarsOf [⟨[((0 : Nat), (1 : Nat))], 1⟩]) = 1) ∧
      varIsMineCount [⟨[((0 : Nat), (1 : Nat))], 1⟩]
          (allVarsOf [⟨[((0 : Nat), (1 : Nat))], 1⟩]) (0, 1) =
        (Finset.univ.filter (fun f : Fin (allVarsOf [⟨[((0 : Nat), (1 : Nat))], 1⟩]).length → Bool =>
          satisfiesExactly [⟨[((0 : Nat), (1 : Nat))], 1⟩]
              (assignOfFn (allVarsOf [⟨[((0 : Nat), (1 : Nat))], 1⟩]) f) ∧
            assignOfFn (allVarsOf [⟨[((0 : Nat), (1 : Nat))], 1⟩]) f (0, 1) = true)).card :=
  ⟨⟨by decide, by decide⟩,
    (enumeration_counts [⟨[((0 : Nat), (1 : Nat))], 1⟩]).2 (0, 1) (by decide)⟩

/-! ### Soundness of certain moves (C1) -/

theorem probe_safe (b : Board) (p : Cell) (hnm : b.board p ≠ -1) :
    (probe b p).1 = true ∧ (probe b p).2.game_over = b.game_over := by
  have hB1 : probeB1 b p = (if b.first_move then { b with first_move := false } else b) := by
    unfold probeB1
    by_cases hfm : b.first_move
    · rw [if_pos hfm, if_pos hfm, if_neg hnm]
    · rw [if_neg hfm, if_neg hfm]
  have hB1b : (probeB1 b p).board p = b.board p := by
    rw [hB1]
    by_cases hfm : b.first_move
    · rw [if_pos hfm]
    · rw [if_neg hfm]
  have hB1go : (probeB1 b p).game_over = b.game_over := by
    rw [hB1]
    by_cases hfm : b.first_move
    · rw [if_pos hfm]
    · rw [if_neg hfm]
  rw [probe_eq, if_neg (by rw [hB1b]; exact hnm)]
  have h3 := probeB3_fields (probeB1 b p) p
  constructor
  · split
    · rfl
    · rfl
  · split
    · show (probeB3 (probeB1 b p) p).game_over = b.game_over
      rw [h3.2.2.2.2.2.1, hB1go]
    · show (probeB3 (probeB1 b p) p).game_over = b.game_over
      rw [h3.2.2.2.2.2.1, hB1go]

/-- Claim C1 (soundness of certain moves).  If every constraint is true of
the hidden mine layout (the meaning of "correctly derived from the visible
numbers and correct marks"), then any probe returned by `find_certain_move`
or by `solve_constraints` targets a non-mine cell, so executing it succeeds
and never sets `game_over`. -/
theorem certain_moves_sound (b : Board) (cs subset : List Constraint)
    (hcs : ∀ c ∈ cs, ((c.vars.countP (fun v => b.board v == -1) : Int) = c.value))
    (hsub : ∀ c ∈ subset, c ∈ cs) :
    (∀ p r, find_certain_move ⟨b, cs⟩ = some ⟨MAction.probe, p, r⟩ →
      b.board p ≠ -1 ∧ (probe b p).1 = true ∧ (probe b p).2.game_over = b.game_over) ∧
    (∀ p r, solve_constraints subset = some ⟨MAction.probe, p, r⟩ →
      b.board p ≠ -1 ∧ (probe b p).1 = true ∧ (probe b p).2.game_over = b.game_over) := by
  constructor
  · intro p r hf
    unfold find_certain_move at hf
    obtain ⟨c, hc, hFc⟩ := List.exists_of_findSome?_eq_some hf
    have hnm : b.board p ≠ -1 := by
      cases h1 : (if c.value = (c.vars.length : Int) then
          c.vars.find? (fun q => !(⟨b, cs⟩ : Solver).board.marked q) else none) with
      | some p' =>
        rw [h1] at hFc
        exact absurd (congrArg (fun m => (Option.map MoveR.action m)) hFc) (by simp)
      | none =>
        rw [h1] at hFc
        cases h2 : (if c.value = (0 : Int) then
            c.vars.find? (fun q => !(⟨b, cs⟩ : Solver).board.visible q &&
              !(⟨b, cs⟩ : Solver).board.marked q) else none) with
        | none => rw [h2] at hFc; exact absurd hFc (by simp)
        | some p' =>
          rw [h2] at hFc
          have hpp : p' = p := by
            have := Option.some.inj hFc
            exact congrArg MoveR.cell this
          subst hpp
          by_cases hval : c.value = (0 : Int)
          · rw [if_pos hval] at h2
            have hpmem : p' ∈ c.vars := List.mem_of_find?_eq_some h2
            have hcnt := hcs c hc
            rw [hval] at hcnt
            have : c.vars.countP (fun v => b.board v == -1) = 0 := by
              omega
            have := List.countP_eq_zero.mp this p' hpmem
            simpa using this
          · rw [if_neg hval] at h2
            exact absurd h2 (by simp)
    exact ⟨hnm, probe_safe b p hnm⟩
  · intro p r hf
    unfold solve_constraints at hf
    dsimp only at hf
    split at hf
    · exact absurd hf (by simp)
    · obtain ⟨v, hvmem, hFv⟩ := List.exists_of_findSome?_eq_some hf
      have hcount0 : (solveWorlds subset (allVarsOf subset) []).countP
          (fun w => lookupD w p false) = 0 ∧ p ∈ allVarsOf subset := by
        by_cases h1 : (solveWorlds subset (allVarsOf subset) []).countP
            (fun w => lookupD w v false) = 0
        · rw [if_pos h1] at hFv
          have := Option.some.inj hFv
          have hvp : v = p := congrArg MoveR.cell this
          subst hvp
          exact ⟨h1, hvmem⟩
        · rw [if_neg h1] at hFv
          split at hFv
          · exact absurd (congrArg MoveR.action (Option.some.inj hFv)) (by simp)
          · exact absurd hFv (by simp)
      obtain ⟨hcount, hpmem⟩ := hcount0
      have hnm : b.board p ≠ -1 := by
        set f : Cell → Bool := fun u => b.board u == -1 with hfdef
        set wstar := (allVarsOf subset).zip ((allVarsOf subset).map f) with hwstar
        have hmem : wstar ∈ solveWorlds subset (allVarsOf subset) [] := by
          rw [solveWorlds_eq]
          rw [List.mem_filter]
          constructor
          · rw [List.mem_map]
            refine ⟨(allVarsOf subset).map f, mem_worlds.mpr (List.length_map _ _), ?_⟩
            rw [List.nil_append]
          · rw [checkAll_iff]
            intro c hc
            have hpt : ∀ u ∈ c.vars,
                (lookupD wstar u false) = f u := by
              intro u hu
              exact lookupD_zip_map (allVarsOf subset) f u false
                (allVarsOf_nodup subset) (mem_allVarsOf hc hu)
            rw [List.countP_congr (fun u hu => by rw [hpt u hu])]
            exact hcs c (hsub c hc)
        have hall := List.countP_eq_zero.mp hcount wstar hmem
        have hlk : lookupD wstar p false = f p :=
          lookupD_zip_map (allVarsOf subset) f p false (allVarsOf_nodup subset) hpmem
        rw [hlk] at hall
        simp only [hfdef] at hall
        simpa using hall
      exact ⟨hnm, probe_safe b p hnm⟩

/-- Witness for C1: a 2×2 board with one mine at `(0,0)`, constraints true of
that layout; both certain-move sources return the probe of the safe cell
`(0,1)`, and probing it is indeed safe. -/
def c1Board : Board :=
  { width := 2, height := 2, num_mines := 1,
    board := fun p => if p = (0, 0) then -1 else 1,
    visible := fun _ => false, marked := fun _ => false,
    first_move := false, game_over := false, won := false }

def c1Constraints : List Constraint :=
  [⟨[(0, 1)], 0⟩, ⟨[(0, 1), (0, 0)], 1⟩, ⟨[(0, 0)], 1⟩]

def c1Subset : List Constraint := [⟨[(0, 1), (0, 0)], 1⟩, ⟨[(0, 0)], 1⟩]

theorem certain_moves_sound_witness :
    ((∀ c ∈ c1Constraints,
        ((c.vars.countP (fun v => c1Board.board v == -1) : Int) = c.value)) ∧
      (∀ c ∈ c1Subset, c ∈ c1Constraints)) ∧
      ((c1Board.board (0, 1) ≠ -1 ∧ (probe c1Board (0, 1)).1 = true ∧
          (probe c1Board (0, 1)).2.game_over = c1Board.game_over) ∧
        (c1Board.board (0, 1) ≠ -1 ∧ (probe c1Board (0, 1)).1 = true ∧
          (probe c1Board (0, 1)).2.game_over = c1Board.game_over)) :=
  ⟨⟨by decide, by decide⟩,
    (certain_moves_sound c1Board c1Constraints c1Subset (by decide) (by decide)).1
      (0, 1) Reason.certainProbe (by decide),
    (certain_moves_sound c1Board c1Constraints c1Subset (by decide) (by decide)).2
      (0, 1) Reason.enumProbe (by decide)⟩

/-! ### Subset elimination (C5, C6) -/

theorem subsetLoop_fixed (cs : List Constraint) (hfix : outerScan cs = (cs, false)) :
    ∀ fuel, fuel ≥ 1 → subsetLoop fuel cs = cs := by
  intro fuel hf
  match fuel with
  | f + 1 =>
    rw [subsetLoop, hfix]
    simp

theorem subset_two (A B : Constraint) (hA : A.vars ≠ [])
    (hsub : ∀ v ∈ A.vars, v ∈ B.vars)
    (hrem : B.vars.filter (fun v => !A.vars.contains v) ≠ []) :
    simplify_constraints_by_subset [A, B] =
      [A, ⟨B.vars.filter (fun v => !A.vars.contains v), B.value - A.value⟩] := by
  set B' : Constraint := ⟨B.vars.filter (fun v => !A.vars.contains v), B.value - A.value⟩
    with hB'
  have hallAB : A.vars.all (fun v => B.vars.contains v) = true := by
    rw [List.all_eq_true]
    intro v hv
    simpa using hsub v hv
  have hnotsub1 : ¬(A.vars.all (fun v => B'.vars.contains v) = true) := by
    intro hall
    obtain ⟨a, ha⟩ := List.exists_mem_of_ne_nil A.vars hA
    have := List.all_eq_true.mp hall a ha
    have hmem : a ∈ B'.vars := by simpa using this
    rw [hB'] at hmem
    have := (List.mem_filter.mp hmem).2
    simp only [Bool.not_eq_true'] at this
    exact absurd this (by simpa using ha)
  have hnotsub2 : ¬(B'.vars.all (fun v => A.vars.contains v) = true) := by
    intro hall
    obtain ⟨bb, hbb⟩ := List.exists_mem_of_ne_nil B'.vars (by rw [hB']; exact hrem)
    have := List.all_eq_true.mp hall bb hbb
    have hmem : bb ∈ A.vars := by simpa using this
    rw [hB'] at hbb
    have := (List.mem_filter.mp hbb).2
    simp only [Bool.not_eq_true'] at this
    exact absurd this (by simpa using hmem)
  have hinner1 : innerScan 0 A [0, 1] [A, B] = ([A, B'], true) := by
    rw [innerScan]
    rw [if_neg (fun h => h.1 rfl)]
    rw [innerScan]
    rw [if_pos ⟨Nat.one_ne_zero, show A.vars.all
      (fun v => (([A, B].getD 1 ⟨[], 0⟩).vars.contains v)) = true from hallAB⟩]
    rw [if_neg (show ¬((([A, B].getD 1 ⟨[], 0⟩).vars.filter
      (fun v => !A.vars.contains v)).isEmpty = true) from by
        intro hemp
        exact hrem (List.isEmpty_iff.mp hemp))]
    rw [innerScan]
    rfl
  have hinner2 : innerScan 0 A [0, 1] [A, B'] = ([A, B'], false) := by
    rw [innerScan]
    rw [if_neg (fun h => h.1 rfl)]
    rw [innerScan]
    rw [if_neg (show ¬((1 ≠ 0) ∧ A.vars.all
      (fun v => (([A, B'].getD 1 ⟨[], 0⟩).vars.contains v)) = true) from
        fun h => hnotsub1 h.2)]
    rw [innerScan]
  have hinner3 : innerScan 1 B' [0, 1] [A, B'] = ([A, B'], false) := by
    rw [innerScan]
    rw [if_neg (show ¬((0 ≠ 1) ∧ B'.vars.all
      (fun v => (([A, B'].getD 0 ⟨[], 0⟩).vars.contains v)) = true) from
        fun h => hnotsub2 h.2)]
    rw [innerScan]
    rw [if_neg (fun h => h.1 rfl)]
    rw [innerScan]
  have houter1 : outerScan [A, B] = ([A, B'], true) := by
    unfold outerScan
    have hrange : List.range ([A, B] : List Constraint).length = [0, 1] := rfl
    rw [hrange]
    rw [outerScan.go]
    rw [show (([A, B] : List Constraint).getD 0 ⟨[], 0⟩) = A from rfl]
    rw [hrange, hinner1]
    simp
  have houter2 : outerScan [A, B'] = ([A, B'], false) := by
    unfold outerScan
    have hrange : List.range ([A, B'] : List Constraint).length = [0, 1] := rfl
    rw [hrange]
    rw [outerScan.go]
    rw [show (([A, B'] : List Constraint).getD 0 ⟨[], 0⟩) = A from rfl]
    rw [hrange, hinner2]
    rw [outerScan.go]
    rw [show (([A, B'] : List Constraint).getD 1 ⟨[], 0⟩) = B' from rfl]
    rw [hrange, hinner3]
    rw [outerScan.go]
    simp
  unfold simplify_constraints_by_subset
  have hfuel : ∃ f, subsetFuel [A, B] = f + 2 := by
    unfold subsetFuel
    have hlen2 : ([A, B] : List Constraint).length = 2 := rfl
    rw [hlen2]
    exact ⟨(([A, B].map (fun c => c.vars.length)).sum + 1), by omega⟩
  obtain ⟨f, hf⟩ := hfuel
  rw [hf]
  rw [subsetLoop, houter1]
  exact subsetLoop_fixed [A, B'] houter2 (f + 1) (by omega)

/-- Counterexample to C6 as stated: subtracting `{(0,0),(0,1)} = 2` from
`{(0,0),(0,1),(0,2)} = 1` leaves the constraint `{(0,2)} = -1`, which is
silently kept in the list — no contradiction of any kind is signalled. -/
theorem subset_negative_target_kept :
    simplify_constraints_by_subset
        [⟨[(0, 0), (0, 1)], 2⟩, ⟨[(0, 0), (0, 1), (0, 2)], 1⟩] =
      [⟨[(0, 0), (0, 1)], 2⟩, ⟨[(0, 2)], -1⟩] := by
  decide

theorem subset_two_witness :
    ((⟨[((0 : Nat), (0 : Nat)), (0, 1)], 2⟩ : Constraint).vars ≠ [] ∧
      (∀ v ∈ (⟨[((0 : Nat), (0 : Nat)), (0, 1)], 2⟩ : Constraint).vars,
        v ∈ (⟨[((0 : Nat), (0 : Nat)), (0, 1), (0, 2)], 1⟩ : Constraint).vars) ∧
      (⟨[((0 : Nat), (0 : Nat)), (0, 1), (0, 2)], 1⟩ : Constraint).vars.filter
        (fun v => !(⟨[((0 : Nat), (0 : Nat)), (0, 1)], 2⟩ : Constraint).vars.contains v) ≠ []) ∧
      simplify_constraints_by_subset
          [⟨[((0 : Nat), (0 : Nat)), (0, 1)], 2⟩, ⟨[((0 : Nat), (0 : Nat)), (0, 1), (0, 2)], 1⟩] =
        [⟨[((0 : Nat), (0 : Nat)), (0, 1)], 2⟩,
          ⟨(⟨[((0 : Nat), (0 : Nat)), (0, 1), (0, 2)], 1⟩ : Constraint).vars.filter
            (fun v => !(⟨[((0 : Nat), (0 : Nat)), (0, 1)], 2⟩ : Constraint).vars.contains v),
            (1 : Int) - 2⟩] :=
  ⟨⟨by decide, by decide, by decide⟩,
    subset_two ⟨[(0, 0), (0, 1)], 2⟩ ⟨[(0, 0), (0, 1), (0, 2)], 1⟩
      (by decide) (by decide) (by decide)⟩

theorem getD_mem_of_lt (l : List Constraint) (n : Nat) (d : Constraint)
    (h : n < l.length) : l.getD n d ∈ l := by
  rw [List.getD_eq_getElem?_getD, List.getElem?_eq_getElem h]
  simp

/-- The inner subset scan only ever shrinks variable lists, so any pointwise
property of all constraint variables is preserved. -/
theorem innerScan_preserve (Q : Cell → Prop) :
    ∀ (js : List Nat) (i : Nat) (c1 : Constraint) (cs : List Constraint),
      (∀ c ∈ cs, ∀ v ∈ c.vars, Q v) →
      ∀ c ∈ (innerScan i c1 js cs).1, ∀ v ∈ c.vars, Q v := by
  intro js
  induction js with
  | nil => intro i c1 cs h; exact h
  | cons j js ih =>
    intro i c1 cs h
    rw [innerScan]
    split
    · dsimp only
      split
      · intro c hc
        exact h c (List.mem_of_mem_eraseIdx hc)
      · next hne =>
        apply ih
        intro c hc
        rcases List.mem_or_eq_of_mem_set hc with hc | rfl
        · exact h c hc
        · intro v hv
          have hvj : v ∈ (cs.getD j ⟨[], 0⟩).vars := List.mem_of_mem_filter hv
          by_cases hj : j < cs.length
          · exact h _ (getD_mem_of_lt cs j _ hj) v hvj
          · exfalso
            rw [List.getD_eq_default _ _ (by omega)] at hne
            exact hne rfl
    · exact ih i c1 cs h

theorem outerScanGo_preserve (Q : Cell → Prop) :
    ∀ (is : List Nat) (cs : List Constraint),
      (∀ c ∈ cs, ∀ v ∈ c.vars, Q v) →
      ∀ c ∈ (outerScan.go is cs).1, ∀ v ∈ c.vars, Q v := by
  intro is
  induction is with
  | nil => intro cs h; exact h
  | cons i is ih =>
    intro cs h
    rw [outerScan.go]
    split
    · exact innerScan_preserve Q _ _ _ _ h
    · exact ih cs h

theorem outerScan_preserve (Q : Cell → Prop) (cs : List Constraint)
    (h : ∀ c ∈ cs, ∀ v ∈ c.vars, Q v) :
    ∀ c ∈ (outerScan cs).1, ∀ v ∈ c.vars, Q v := by
  unfold outerScan
  exact outerScanGo_preserve Q _ cs h

theorem subsetLoop_preserve (Q : Cell → Prop) :
    ∀ (fuel : Nat) (cs : List Constraint),
      (∀ c ∈ cs, ∀ v ∈ c.vars, Q v) →
      ∀ c ∈ subsetLoop fuel cs, ∀ v ∈ c.vars, Q v := by
  intro fuel
  induction fuel with
  | zero => intro cs h; exact h
  | succ fuel ih =>
    intro cs h
    rw [subsetLoop]
    split
    · exact ih _ (outerScan_preserve Q cs h)
    · exact h

/-- When every constraint's variables are all unknown and every target is
strictly between 0 and the size, one pass of `simplify_constraints` changes
nothing: no variable is dropped, no target decremented, and no degenerate
branch fires. -/
theorem simplify_constraints_id (s : Solver)
    (h0 : ∀ c ∈ s.constraints, ∀ v ∈ c.vars,
      s.board.visible v = false ∧ s.board.marked v = false)
    (h1 : ∀ c ∈ s.constraints, 0 < c.value ∧ c.value < (c.vars.length : Int)) :
    simplify_constraints s = s := by
  unfold simplify_constraints
  suffices h : ∀ (cs acc : List Constraint),
      (∀ c ∈ cs, ∀ v ∈ c.vars,
        s.board.visible v = false ∧ s.board.marked v = false) →
      (∀ c ∈ cs, 0 < c.value ∧ c.value < (c.vars.length : Int)) →
      cs.foldl
        (fun (st : Board × List Constraint) c =>
          let b := st.1
          let new_vars := c.vars.filter (fun p => !b.visible p && !b.marked p)
          let new_value := c.value -
            (c.vars.countP (fun p => !b.visible p && b.marked p) : Int)
          if new_vars.isEmpty then st
          else if new_value = 0 then
            (new_vars.foldl (fun bb p =>
              { bb with visible := fun x => if x = p then true else bb.visible x }) b, st.2)
          else if new_value = (new_vars.length : Int) then
            (new_vars.foldl (fun bb p => mark_mine bb p) b, st.2)
          else (b, st.2 ++ [⟨new_vars, new_value⟩]))
        (s.board, acc) = (s.board, acc ++ cs) by
    rw [h s.constraints [] h0 h1]
    rfl
  intro cs
  induction cs with
  | nil => intro acc _ _; rw [List.foldl_nil, List.append_nil]
  | cons c rest ih =>
    intro acc hh0 hh1
    rw [List.foldl_cons]
    have hfilter : c.vars.filter (fun p => !s.board.visible p && !s.board.marked p) =
        c.vars := by
      apply List.filter_eq_self.mpr
      intro v hv
      have := hh0 c (List.mem_cons_self _ _) v hv
      simp [this.1, this.2]
    have hcnt : c.vars.countP (fun p => !s.board.visible p && s.board.marked p) = 0 := by
      apply List.countP_eq_zero.mpr
      intro v hv
      have := hh0 c (List.mem_cons_self _ _) v hv
      simp [this.1, this.2]
    have hval := hh1 c (List.mem_cons_self _ _)
    dsimp only
    rw [hfilter, hcnt]
    have hlen : c.vars ≠ [] := by
      intro he
      rw [he] at hval
      simp at hval
      omega
    rw [if_neg (by
      intro hemp
      exact hlen (List.isEmpty_iff.mp hemp))]
    rw [if_neg (by
      push_cast
      omega)]
    rw [if_neg (by
      push_cast
      omega)]
    rw [Nat.cast_zero, sub_zero]
    have heta : (⟨c.vars, c.value⟩ : Constraint) = c := rfl
    rw [heta]
    rw [ih (acc ++ [c])
      (fun c' hc' => hh0 c' (List.mem_cons_of_mem c hc'))
      (fun c' hc' => hh1 c' (List.mem_cons_of_mem c hc'))]
    rw [List.append_assoc]
    rfl

/-- Claim C5 (corrected).  One invocation of simplify followed by
subset-simplify IS a fixed point provided that the pass had nothing to do:
every variable already unknown, every target nondegenerate before and (H3)
after subset elimination, and the subset loop exited at a genuine fixed
point (H2).  Without these provisos a second run can still change state (see
the counterexample). -/
theorem simplify_pair_conditional_idempotent (s : Solver)
    (h0 : ∀ c ∈ s.constraints, ∀ v ∈ c.vars,
      s.board.visible v = false ∧ s.board.marked v = false)
    (h1 : ∀ c ∈ s.constraints, 0 < c.value ∧ c.value < (c.vars.length : Int))
    (H2 : outerScan (simpPair s).constraints = ((simpPair s).constraints, false))
    (H3 : ∀ c ∈ (simpPair s).constraints, 0 < c.value ∧ c.value < (c.vars.length : Int)) :
    simpPair (simpPair s) = simpPair s := by
  have hsimp1 : simplify_constraints s = s := simplify_constraints_id s h0 h1
  have hps : simpPair s =
      ⟨s.board, simplify_constraints_by_subset s.constraints⟩ := by
    unfold simpPair
    rw [hsimp1]
  have hboard : (simpPair s).board = s.board := by rw [hps]
  have h0' : ∀ c ∈ (simpPair s).constraints, ∀ v ∈ c.vars,
      (simpPair s).board.visible v = false ∧ (simpPair s).board.marked v = false := by
    rw [hps]
    intro c hc v hv
    exact subsetLoop_preserve
      (fun u => s.board.visible u = false ∧ s.board.marked u = false)
      (subsetFuel s.constraints) s.constraints
      (fun c' hc' u hu => h0 c' hc' u hu) c hc v hv
  have hsimp2 : simplify_constraints (simpPair s) = simpPair s :=
    simplify_constraints_id (simpPair s) h0' H3
  show (⟨(simplify_constraints (simpPair s)).board,
    simplify_constraints_by_subset (simplify_constraints (simpPair s)).constraints⟩ : Solver) =
    simpPair s
  rw [hsimp2]
  unfold simplify_constraints_by_subset
  rw [subsetLoop_fixed (simpPair s).constraints H2 (subsetFuel (simpPair s).constraints)
    (by unfold subsetFuel; omega)]

/-- Counterexample to C5 as stated: with constraints
`[{(0,0),(0,1)} = 1, {(0,0)} = 1]` on a fresh 2×2 board, the first pass marks
`(0,0)` while keeping the earlier constraint untouched; the second pass then
reveals `(0,1)` and drops the constraint — one invocation of the pair is not
a fixed point. -/
def c5Solver : Solver :=
  ⟨{ width := 2, height := 2, num_mines := 1,
     board := fun p => if p = (0, 0) then -1 else 1,
     visible := fun p => (p = (1, 0) ∨ p = (1, 1) : Bool),
     marked := fun _ => false,
     first_move := false, game_over := false, won := false },
   [⟨[(0, 0), (0, 1)], 1⟩, ⟨[(0, 0)], 1⟩]⟩

theorem simplify_pair_not_idempotent :
    (simpPair c5Solver).constraints = [⟨[(0, 0), (0, 1)], 1⟩] ∧
      (simpPair c5Solver).board.marked (0, 0) = true ∧
      (simpPair c5Solver).board.visible (0, 1) = false ∧
      (simpPair (simpPair c5Solver)).constraints = [] ∧
      (simpPair (simpPair c5Solver)).board.visible (0, 1) = true := by
  exact ⟨by decide, by decide, by decide, by decide, by decide⟩

/-- Witness for C5's amended statement: a single nondegenerate constraint
over unknown cells is a fixed point of the pair. -/
def c5FixedSolver : Solver :=
  ⟨{ width := 2, height := 2, num_mines := 1,
     board := fun p => if p = (0, 0) then -1 else 1,
     visible := fun _ => false, marked := fun _ => false,
     first_move := false, game_over := false, won := false },
   [⟨[(0, 0), (0, 1)], 1⟩]⟩

theorem simplify_pair_conditional_idempotent_witness :
    ((∀ c ∈ c5FixedSolver.constraints, ∀ v ∈ c.vars,
        c5FixedSolver.board.visible v = false ∧ c5FixedSolver.board.marked v = false) ∧
      (∀ c ∈ c5FixedSolver.constraints, 0 < c.value ∧ c.value < (c.vars.length : Int)) ∧
      outerScan (simpPair c5FixedSolver).constraints =
        ((simpPair c5FixedSolver).constraints, false) ∧
      (∀ c ∈ (simpPair c5FixedSolver).constraints,
        0 < c.value ∧ c.value < (c.vars.length : Int))) ∧
      simpPair (simpPair c5FixedSolver) = simpPair c5FixedSolver :=
  ⟨⟨by decide, by decide, by decide, by decide⟩,
    simplify_pair_conditional_idempotent c5FixedSolver
      (by decide) (by decide) (by decide) (by decide)⟩

/-! ### Craps shoot precedes enumeration (C4) -/

/-- Claim C4 (corrected).  Inside `next_move`'s component loop the
craps-shoot test runs BEFORE the exhaustive enumeration: when
`find_certain_move` yields nothing and the first coupled component is closed,
`next_move` returns the uniformly random craps-shoot probe — regardless of
whether that component's enumeration would have produced a certain move. -/
theorem next_move_craps_before_enum (rnd : RandSrc) (s : Solver) (m : MoveR)
    (comp : List Constraint) (rest : List (List Constraint))
    (hcert : find_certain_move (simpPair s) = none)
    (hcoupled : find_coupled_constraints (simpPair s).constraints = comp :: rest)
    (hcraps : check_craps_shoot rnd (simpPair s) comp = some m) :
    (next_move rnd s).1 = some m := by
  unfold next_move
  dsimp only
  have he : (⟨(simplify_constraints s).board,
      simplify_constraints_by_subset (simplify_constraints s).constraints⟩ : Solver) =
      simpPair s := rfl
  have he2 : simplify_constraints_by_subset (simplify_constraints s).constraints =
      (simpPair s).constraints := rfl
  rw [he, he2, hcert, hcoupled, processComponents, hcraps]

/-- Counterexample to C4 as stated: a closed component whose enumeration
yields certain moves (a unique satisfying world).  `next_move` nevertheless
returns the craps-shoot probe — here at the mine `(0,0)`. -/
def c4Solver : Solver :=
  ⟨{ width := 3, height := 3, num_mines := 2,
     board := fun p =>
       if p = (0, 0) ∨ p = (0, 2) then -1
       else if p = (0, 1) then 2 else if p = (1, 0) then 1
       else if p = (1, 1) then 2 else if p = (1, 2) then 1 else 0,
     visible := fun p => !(p = (0, 0) ∨ p = (0, 1) ∨ p = (0, 2) ∨ p = (1, 0) : Bool),
     marked := fun _ => false,
     first_move := false, game_over := false, won := false },
   [⟨[(0, 0), (0, 1)], 1⟩, ⟨[(0, 1), (0, 2), (1, 0)], 1⟩, ⟨[(0, 0), (1, 0)], 1⟩]⟩

theorem next_move_craps_over_certain :
    (next_move headRand c4Solver).1 = some ⟨MAction.probe, (0, 0), Reason.crapsShoot⟩ ∧
      solve_constraints
          (find_coupled_constraints (simpPair c4Solver).constraints).headI =
        some ⟨MAction.mark, (0, 0), Reason.enumMark⟩ ∧
      varIsMineCount (find_coupled_constraints (simpPair c4Solver).constraints).headI
          (allVarsOf (find_coupled_constraints (simpPair c4Solver).constraints).headI)
          (0, 1) = 0 ∧
      c4Solver.board.board (0, 0) = -1 := by
  exact ⟨by decide, by decide, by decide, by decide⟩

theorem next_move_craps_before_enum_witness :
    (find_certain_move (simpPair c4Solver) = none ∧
      find_coupled_constraints (simpPair c4Solver).constraints =
        [[⟨[(0, 0), (0, 1)], 1⟩, ⟨[(0, 1), (0, 2), (1, 0)], 1⟩, ⟨[(0, 0), (1, 0)], 1⟩]] ∧
      check_craps_shoot headRand (simpPair c4Solver)
          [⟨[(0, 0), (0, 1)], 1⟩, ⟨[(0, 1), (0, 2), (1, 0)], 1⟩, ⟨[(0, 0), (1, 0)], 1⟩] =
        some ⟨MAction.probe, (0, 0), Reason.crapsShoot⟩) ∧
      (next_move headRand c4Solver).1 = some ⟨MAction.probe, (0, 0), Reason.crapsShoot⟩ :=
  ⟨⟨by decide, by decide, by decide⟩,
    next_move_craps_before_enum headRand c4Solver
      ⟨MAction.probe, (0, 0), Reason.crapsShoot⟩
      [⟨[(0, 0), (0, 1)], 1⟩, ⟨[(0, 1), (0, 2), (1, 0)], 1⟩, ⟨[(0, 0), (1, 0)], 1⟩] []
      (by decide) (by decide) (by decide)⟩
